import Mathlib

set_option maxHeartbeats 1000000

/-!
Verification development for the binary-pack envelope codec.

The JavaScript sources are shallowly embedded:
* byte buffers (`ArrayBuffer` / `Uint8Array`) become `List Nat` whose
  entries are bytes (`< 256`);
* JS strings become `List Nat` of UTF-16 code units (`charCodeAt` values);
* JS 32-bit coercions (`|0`, `<<`, `^`, `setUint8`, `setUint32`) become
  explicit modular arithmetic on `Int` / `Nat`;
* fallible operations return `Option` / `Except`.
-/
/-- JS `ToUint32`: the unsigned 32-bit pattern of an integer. -/
def toUint32 (a : Int) : Nat := (a % 4294967296).toNat

/-- JS `ToInt32`: wraparound into the signed 32-bit range, as performed by
`|0` and by the shift operators. -/
def toInt32 (a : Int) : Int := Int.bmod a 4294967296

/-- JS `ToUint8`: the byte actually stored by an assignment into a
`Uint8Array` element. -/
def toUint8 (a : Int) : Nat := (a % 256).toNat

/-- JS `^` on numbers: both operands are converted to their 32-bit patterns,
the patterns are xor-ed, and the result is reinterpreted as a signed 32-bit
integer. -/
def jsXor32 (a b : Int) : Int := toInt32 ((toUint32 a ^^^ toUint32 b : Nat) : Int)

/-- JS indexed read `l[i]` where an out-of-range read yields `undefined`,
which the numeric coercions used by the strategies turn into `0`. -/
def jsGet (l : List Nat) (i : Nat) : Nat := l.getD i 0

/-! ### Hash utility (src/src/Utils/Hash.js) -/
inductive HashError where
  | invalidInput
  deriving DecidableEq

/-- The dynamically typed argument of `Hash.secret`: either a JS string
(a list of UTF-16 code units) or any non-string value. -/
inductive HashInput where
  | str (s : List Nat)
  | nonString

namespace Hash

/-- One loop iteration of `Hash.secret`:
`hash = ((hash << 5) - hash) + secret.charCodeAt(i); hash |= 0;`.
`<< 5` wraps into signed 32 bits, as does the final `|= 0`. -/
def step (h : Int) (c : Nat) : Int := toInt32 (toInt32 (h * 32) - h + (c : Int))

/-- `Hash.secret` applied to a string: the empty string maps to `0`,
otherwise the loop runs over the code units and `Math.abs` of the final
signed accumulator is returned. -/
def secretStr (s : List Nat) : Nat :=
  if s.length = 0 then 0 else (s.foldl step 0).natAbs

/-- `Hash.secret` (src/src/Utils/Hash.js): rejects non-strings, then
hashes the string argument. -/
def secret : HashInput → Except HashError Nat
  | .nonString => .error .invalidInput
  | .str s => .ok (secretStr s)

/-- Spec-side model of the accumulator: iterate the characters in order,
`h = (h*31 + codePoint) mod 2^32`, plain modular arithmetic on `Nat`. -/
def specAcc (s : List Nat) : Nat :=
  s.foldl (fun h c => (31 * h + c) % 4294967296) 0

/-- Spec-side model of the result: the non-negative magnitude of the final
accumulator, the accumulator being read as a wrapped (signed) 32-bit
quantity. -/
def specHash (s : List Nat) : Nat := (toInt32 ((specAcc s : Nat) : Int)).natAbs

/-- The exact integer fold corresponding to `h*31 + c` without reduction. -/
def intFold (s : List Nat) (a : Int) : Int :=
  s.foldl (fun h c => 31 * h + (c : Int)) a

end Hash

/-! ### UTF-8 encoding (`TextEncoder.encode` applied to a sequence of UTF-16
code units; surrogate pairs are combined, lone surrogates are replaced by
U+FFFD, per WHATWG). -/
def utf8Encode : List Nat → List Nat
  | [] => []
  | c :: rest =>
    if c < 128 then c :: utf8Encode rest
    else if c < 2048 then (192 + c / 64) :: (128 + c % 64) :: utf8Encode rest
    else if 55296 ≤ c ∧ c ≤ 56319 then
      match hr : rest with
      | c2 :: rest2 =>
        if 56320 ≤ c2 ∧ c2 ≤ 57343 then
          let cp := 65536 + (c - 55296) * 1024 + (c2 - 56320)
          (240 + cp / 262144) :: (128 + (cp / 4096) % 64) :: (128 + (cp / 64) % 64) ::
            (128 + cp % 64) :: utf8Encode rest2
        else 239 :: 191 :: 189 :: utf8Encode rest
      | [] => [239, 191, 189]
    else if 56320 ≤ c ∧ c ≤ 57343 then 239 :: 191 :: 189 :: utf8Encode rest
    else (224 + c / 4096) :: (128 + (c / 64) % 64) :: (128 + c % 64) :: utf8Encode rest
termination_by l => l.length
decreasing_by all_goals simp_all [List.length_cons] <;> omega

/-! ### Transform strategies
(src/src/EncryptionMethod/Methods/XOR.js, AES.js, Caesar.js).

Each strategy's loop assigns `dataPart[i] = f(i, dataPart[i])`: the new
value of an entry depends only on its index and its own previous value, so
the in-place loop is a map with index (the iteration order of such a loop
is immaterial). -/
def loopMap (f : Nat → Nat → Nat) : Nat → List Nat → List Nat
  | _, [] => []
  | i, b :: rest => f i b :: loopMap f (i + 1) rest

namespace XOR

/-- `XOR.encrypt`: `dataPart[i] ^= secretBytes[i % secretBytes.length]`,
where `secretBytes = encoder.encode(secret)`. -/
def encrypt (secret : List Nat) (dataPart : List Nat) : List Nat :=
  let secretBytes := utf8Encode secret
  loopMap (fun i b =>
    toUint8 (jsXor32 (b : Int) ((jsGet secretBytes (i % secretBytes.length) : Nat) : Int)))
    0 dataPart

/-- `XOR.decrypt` calls `encrypt` verbatim. -/
def decrypt (secret : List Nat) (dataPart : List Nat) : List Nat :=
  encrypt secret dataPart

end XOR

namespace AES

/-- The key byte used at index `i` of round `r`:
`secretBytes[(i + round) % secretBytes.length]`. -/
def keyByte (key : List Nat) (r i : Nat) : Nat := jsGet key ((i + r) % key.length)

/-- One forward round:
`dataPart[i] = ((dataPart[i] ^ secretByte) + round + i) % 256`. -/
def encByte (key : List Nat) (r i b : Nat) : Nat :=
  toUint8 (Int.tmod (jsXor32 (b : Int) ((keyByte key r i : Nat) : Int) + (r : Int) + (i : Int)) 256)

/-- One backward round:
`dataPart[i] = ((dataPart[i] - round - i + 256) % 256) ^ secretByte`. -/
def decByte (key : List Nat) (r i b : Nat) : Nat :=
  toUint8 (jsXor32 (Int.tmod ((b : Int) - (r : Int) - (i : Int) + 256) 256)
    ((keyByte key r i : Nat) : Int))

/-- `AES.encrypt`: three rounds `r = 0, 1, 2`, each a left-to-right in-place
pass over the data slice. -/
def encrypt (secret : List Nat) (dataPart : List Nat) : List Nat :=
  let key := utf8Encode secret
  loopMap (encByte key 2) 0 (loopMap (encByte key 1) 0 (loopMap (encByte key 0) 0 dataPart))

/-- `AES.decrypt`: rounds `r = 2, 1, 0`, each a right-to-left in-place pass
(the per-entry update makes the within-round order immaterial). -/
def decrypt (secret : List Nat) (dataPart : List Nat) : List Nat :=
  let key := utf8Encode secret
  loopMap (decByte key 0) 0 (loopMap (decByte key 1) 0 (loopMap (decByte key 2) 0 dataPart))

end AES

namespace Caesar

/-- The shift used by the Caesar strategy: `hash(secret) % 26`. -/
def shiftOf (secret : List Nat) : Nat := Hash.secretStr secret % 26

/-- `Caesar.encrypt`: `dataPart[i] = (dataPart[i] + shift) % 256`. -/
def encrypt (secret : List Nat) (dataPart : List Nat) : List Nat :=
  let shift := shiftOf secret
  loopMap (fun _ b => (b + shift) % 256) 0 dataPart

/-- `Caesar.decrypt`: `dataPart[i] = (dataPart[i] - shift + 256) % 256`;
the shift is at most 25, so the JS expression never goes negative and the
truncating `%` is the ordinary modulus. -/
def decrypt (secret : List Nat) (dataPart : List Nat) : List Nat :=
  let shift := shiftOf secret
  loopMap (fun _ b => toUint8 (Int.tmod ((b : Int) - (shift : Int) + 256) 256)) 0 dataPart

end Caesar

/-! ### JSON values and `JSON.stringify`

`JSON.stringify` / `JSON.parse` are the runtime serializer used by
`BinaryPack.pack` / `unpack`.  JSON numbers are modelled by the
exactly-representable integers (`Int`); object fields are kept in property
order.  Strings are lists of UTF-16 code units. -/
inductive Json where
  | null
  | bool (b : Bool)
  | num (n : Int)
  | str (s : List Nat)
  | arr (elements : List Json)
  | obj (fields : List (List Nat × Json))

/-- Lowercase hex digit, as produced by the `UnicodeEscape` operation. -/
def hexDigit (d : Nat) : Nat := if d < 10 then 48 + d else 87 + d

/-- The four hex digits of a `\uXXXX` escape. -/
def hex4 (c : Nat) : List Nat :=
  [hexDigit (c / 4096 % 16), hexDigit (c / 256 % 16), hexDigit (c / 16 % 16), hexDigit (c % 16)]

/-- `QuoteJSONString` (ES2019): escape quote, backslash, the five short
control escapes, other control characters, and unpaired surrogates; keep
paired surrogates and all other code units literal. -/
def quoteJSONString : List Nat → List Nat
  | [] => []
  | c :: rest =>
    if c = 34 then 92 :: 34 :: quoteJSONString rest
    else if c = 92 then 92 :: 92 :: quoteJSONString rest
    else if c = 8 then 92 :: 98 :: quoteJSONString rest
    else if c = 9 then 92 :: 116 :: quoteJSONString rest
    else if c = 10 then 92 :: 110 :: quoteJSONString rest
    else if c = 12 then 92 :: 102 :: quoteJSONString rest
    else if c = 13 then 92 :: 114 :: quoteJSONString rest
    else if c < 32 then 92 :: 117 :: (hex4 c ++ quoteJSONString rest)
    else if 55296 ≤ c ∧ c ≤ 56319 then
      match hr : rest with
      | c2 :: rest2 =>
        if 56320 ≤ c2 ∧ c2 ≤ 57343 then c :: c2 :: quoteJSONString rest2
        else 92 :: 117 :: (hex4 c ++ quoteJSONString rest)
      | [] => 92 :: 117 :: hex4 c
    else if 56320 ≤ c ∧ c ≤ 57343 then 92 :: 117 :: (hex4 c ++ quoteJSONString rest)
    else c :: quoteJSONString rest
termination_by l => l.length
decreasing_by all_goals simp_all [List.length_cons] <;> omega

/-- Decimal digits of a natural number, most significant first, in ASCII. -/
def natToDigits (n : Nat) : List Nat :=
  if n < 10 then [48 + n] else natToDigits (n / 10) ++ [48 + n % 10]
termination_by n
decreasing_by omega

/-- `Number::toString` on an exactly-representable integer below `1e21`:
plain decimal notation with a leading minus for negatives. -/
def intToDec (n : Int) : List Nat :=
  if n < 0 then 45 :: natToDigits n.natAbs else natToDigits n.natAbs

mutual

/-- `JSON.stringify` (no space argument) on the modelled values. -/
def render : Json → List Nat
  | .null => [110, 117, 108, 108]
  | .bool true => [116, 114, 117, 101]
  | .bool false => [102, 97, 108, 115, 101]
  | .num n => intToDec n
  | .str s => 34 :: (quoteJSONString s ++ [34])
  | .arr l => 91 :: (renderElems l ++ [93])
  | .obj fs => 123 :: (renderFields fs ++ [125])

/-- Comma-separated serializations of array elements. -/
def renderElems : List Json → List Nat
  | [] => []
  | [v] => render v
  | v :: v2 :: rest => render v ++ 44 :: renderElems (v2 :: rest)

/-- Comma-separated `"key":value` serializations of object members. -/
def renderFields : List (List Nat × Json) → List Nat
  | [] => []
  | [(k, v)] => 34 :: (quoteJSONString k ++ (34 :: 58 :: render v))
  | (k, v) :: f2 :: rest =>
      (34 :: (quoteJSONString k ++ (34 :: 58 :: render v))) ++ 44 :: renderFields (f2 :: rest)

end

/-! ### `JSON.parse` (on the modelled fragment)

A total recursive-descent parser over UTF-16 code units, faithful to the
JSON grammar produced by the serializer above; number literals are read on
the exactly-representable integer fragment (a fraction or exponent makes
the parse fail, as such a value falls outside the modelled `Json.num`). -/
/-- JSON insignificant whitespace. -/
def isJsonWs (c : Nat) : Bool := c = 32 || c = 9 || c = 10 || c = 13

def skipWs : List Nat → List Nat
  | [] => []
  | c :: rest => if isJsonWs c then skipWs rest else c :: rest

def isDigit (c : Nat) : Bool := 48 ≤ c && c ≤ 57

/-- Numeric value of a list of ASCII digits, most significant first. -/
def digitsVal (ds : List Nat) : Nat :=
  ds.foldl (fun acc d => acc * 10 + (d - 48)) 0

/-- Parse an unsigned integer literal: maximal digit run, no leading zero,
not continued by a fraction or exponent. -/
def parseNumAbs (l : List Nat) : Option (Nat × List Nat) :=
  let ds := l.takeWhile isDigit
  let rest := l.dropWhile isDigit
  if ds = [] then none
  else if ds.head? = some 48 ∧ 1 < ds.length then none
  else
    match rest with
    | 46 :: _ => none
    | 101 :: _ => none
    | 69 :: _ => none
    | _ => some (digitsVal ds, rest)

/-- Parse a (possibly negative) integer literal. -/
def parseNumber (l : List Nat) : Option (Int × List Nat) :=
  match l with
  | 45 :: rest => (parseNumAbs rest).map (fun p => (-(p.1 : Int), p.2))
  | _ => (parseNumAbs l).map (fun p => ((p.1 : Int), p.2))

def parseHexDigit (c : Nat) : Option Nat :=
  if 48 ≤ c ∧ c ≤ 57 then some (c - 48)
  else if 97 ≤ c ∧ c ≤ 102 then some (c - 87)
  else if 65 ≤ c ∧ c ≤ 70 then some (c - 55)
  else none

/-- Parse the body of a string literal after the opening quote, up to and
including the closing quote; returns the code units and the rest. -/
def parseStringBody : List Nat → Option (List Nat × List Nat)
  | [] => none
  | c :: rest =>
    if c = 34 then some ([], rest)
    else if c = 92 then
      match rest with
      | 34 :: r => (parseStringBody r).map (fun p => (34 :: p.1, p.2))
      | 92 :: r => (parseStringBody r).map (fun p => (92 :: p.1, p.2))
      | 47 :: r => (parseStringBody r).map (fun p => (47 :: p.1, p.2))
      | 98 :: r => (parseStringBody r).map (fun p => (8 :: p.1, p.2))
      | 102 :: r => (parseStringBody r).map (fun p => (12 :: p.1, p.2))
      | 110 :: r => (parseStringBody r).map (fun p => (10 :: p.1, p.2))
      | 114 :: r => (parseStringBody r).map (fun p => (13 :: p.1, p.2))
      | 116 :: r => (parseStringBody r).map (fun p => (9 :: p.1, p.2))
      | 117 :: h1 :: h2 :: h3 :: h4 :: r =>
        match parseHexDigit h1, parseHexDigit h2, parseHexDigit h3, parseHexDigit h4 with
        | some d1, some d2, some d3, some d4 =>
          (parseStringBody r).map (fun p => ((4096 * d1 + 256 * d2 + 16 * d3 + d4) :: p.1, p.2))
        | _, _, _, _ => none
      | _ => none
    else if c < 32 then none
    else (parseStringBody rest).map (fun p => (c :: p.1, p.2))
termination_by l => l.length
decreasing_by all_goals simp_all [List.length_cons] <;> omega

mutual

/-- Parse one JSON value (leading whitespace allowed); `fuel` bounds the
nesting of recursive-descent calls. -/
def parseValue : Nat → List Nat → Option (Json × List Nat)
  | 0, _ => none
  | fuel + 1, input =>
    match skipWs input with
    | [] => none
    | c :: rest =>
      if c = 110 then
        match rest with
        | 117 :: 108 :: 108 :: r => some (.null, r)
        | _ => none
      else if c = 116 then
        match rest with
        | 114 :: 117 :: 101 :: r => some (.bool true, r)
        | _ => none
      else if c = 102 then
        match rest with
        | 97 :: 108 :: 115 :: 101 :: r => some (.bool false, r)
        | _ => none
      else if c = 34 then
        (parseStringBody rest).map (fun p => (.str p.1, p.2))
      else if c = 91 then
        match skipWs rest with
        | 93 :: r => some (.arr [], r)
        | r1 => (parseElems fuel r1).map (fun p => (.arr p.1, p.2))
      else if c = 123 then
        match skipWs rest with
        | 125 :: r => some (.obj [], r)
        | r1 => (parseMembers fuel r1).map (fun p => (.obj p.1, p.2))
      else if c = 45 || isDigit c then
        (parseNumber (c :: rest)).map (fun p => (.num p.1, p.2))
      else none

/-- Parse the nonempty element list of an array, consuming the closing
bracket. -/
def parseElems : Nat → List Nat → Option (List Json × List Nat)
  | 0, _ => none
  | fuel + 1, input =>
    (parseValue fuel input).bind (fun p =>
      match skipWs p.2 with
      | 44 :: r2 => (parseElems fuel r2).map (fun q => (p.1 :: q.1, q.2))
      | 93 :: r2 => some ([p.1], r2)
      | _ => none)

/-- Parse the nonempty member list of an object, consuming the closing
brace. -/
def parseMembers : Nat → List Nat → Option (List (List Nat × Json) × List Nat)
  | 0, _ => none
  | fuel + 1, input =>
    match skipWs input with
    | 34 :: r =>
      (parseStringBody r).bind (fun pk =>
        match skipWs pk.2 with
        | 58 :: r2 =>
          (parseValue fuel r2).bind (fun pv =>
            match skipWs pv.2 with
            | 44 :: r4 => (parseMembers fuel r4).map (fun q => ((pk.1, pv.1) :: q.1, q.2))
            | 125 :: r4 => some ([(pk.1, pv.1)], r4)
            | _ => none)
        | _ => none)
    | _ => none

end

/-- `JSON.parse`: parse one value and require only whitespace after it. -/
def jsonParse (input : List Nat) : Option Json :=
  (parseValue (input.length + 1) input).bind (fun p =>
    match skipWs p.2 with
    | [] => some p.1
    | _ => none)

/-- The characters allowed to follow a serialized value inside a larger
serialization: a separator, a closing bracket or brace, or nothing. -/
def SepOk (r : List Nat) : Prop :=
  r = [] ∨ ∃ c r2, r = c :: r2 ∧ (c = 44 ∨ c = 93 ∨ c = 125)

/-- What the number parser needs of the following characters: no digit, no
fraction dot, no exponent letter. -/
def NumSafe (r : List Nat) : Prop :=
  ∀ c r2, r = c :: r2 → isDigit c = false ∧ c ≠ 46 ∧ c ≠ 101 ∧ c ≠ 69

mutual

/-- Fuel measure: enough recursive-descent calls to parse a serialized
value. -/
def sizeJ : Json → Nat
  | .null => 1
  | .bool _ => 1
  | .num _ => 1
  | .str _ => 1
  | .arr l => 1 + sizeElems l
  | .obj fs => 1 + sizeMembers fs

def sizeElems : List Json → Nat
  | [] => 0
  | v :: vs => 1 + sizeJ v + sizeElems vs

def sizeMembers : List (List Nat × Json) → Nat
  | [] => 0
  | (_, v) :: fs => 1 + sizeJ v + sizeMembers fs

end

/-! ### UTF-8 decoding (`TextDecoder.decode`, non-fatal: malformed
sequences are replaced by U+FFFD per WHATWG; a decoded supplementary code
point is emitted as a surrogate pair of UTF-16 code units). -/
def utf8Decode : List Nat → List Nat
  | [] => []
  | b :: rest =>
    if b < 128 then b :: utf8Decode rest
    else if 194 ≤ b ∧ b ≤ 223 then
      match hr : rest with
      | b2 :: rest2 =>
        if 128 ≤ b2 ∧ b2 ≤ 191 then ((b - 192) * 64 + (b2 - 128)) :: utf8Decode rest2
        else 65533 :: utf8Decode rest
      | [] => [65533]
    else if 224 ≤ b ∧ b ≤ 239 then
      match hr : rest with
      | b2 :: rest2 =>
        if (if b = 224 then 160 ≤ b2 ∧ b2 ≤ 191
            else if b = 237 then 128 ≤ b2 ∧ b2 ≤ 159
            else 128 ≤ b2 ∧ b2 ≤ 191) then
          match hr2 : rest2 with
          | b3 :: rest3 =>
            if 128 ≤ b3 ∧ b3 ≤ 191 then
              ((b - 224) * 4096 + (b2 - 128) * 64 + (b3 - 128)) :: utf8Decode rest3
            else 65533 :: utf8Decode rest2
          | [] => [65533, 65533]
        else 65533 :: utf8Decode rest
      | [] => [65533]
    else if 240 ≤ b ∧ b ≤ 244 then
      match hr : rest with
      | b2 :: rest2 =>
        if (if b = 240 then 144 ≤ b2 ∧ b2 ≤ 191
            else if b = 244 then 128 ≤ b2 ∧ b2 ≤ 143
            else 128 ≤ b2 ∧ b2 ≤ 191) then
          match hr2 : rest2 with
          | b3 :: rest3 =>
            if 128 ≤ b3 ∧ b3 ≤ 191 then
              match hr3 : rest3 with
              | b4 :: rest4 =>
                if 128 ≤ b4 ∧ b4 ≤ 191 then
                  (55296 + ((b - 240) * 262144 + (b2 - 128) * 4096 + (b3 - 128) * 64 +
                      (b4 - 128) - 65536) / 1024) ::
                    (56320 + ((b - 240) * 262144 + (b2 - 128) * 4096 + (b3 - 128) * 64 +
                      (b4 - 128) - 65536) % 1024) :: utf8Decode rest4
                else 65533 :: utf8Decode rest3
              | [] => [65533, 65533]
            else 65533 :: utf8Decode rest2
          | [] => [65533, 65533]
        else 65533 :: utf8Decode rest
      | [] => [65533]
    else 65533 :: utf8Decode rest
termination_by l => l.length
decreasing_by all_goals simp_all [List.length_cons] <;> omega

/-- Well-formed UTF-16: every code unit below 2^16, surrogates only in
high-low pairs (the invariant of the serializer's output). -/
def wfUtf16 : List Nat → Bool
  | [] => true
  | c :: rest =>
    if c < 55296 then wfUtf16 rest
    else if c ≤ 56319 then
      match hr : rest with
      | c2 :: rest2 => decide (56320 ≤ c2 ∧ c2 ≤ 57343) && wfUtf16 rest2
      | [] => false
    else if c ≤ 57343 then false
    else decide (c < 65536) && wfUtf16 rest
termination_by l => l.length
decreasing_by all_goals simp_all [List.length_cons] <;> omega

mutual

/-- The JS-string invariant on a modelled value: every string (and key) is
a sequence of UTF-16 code units, i.e. all entries below 2^16. -/
def jsonWf : Json → Bool
  | .null => true
  | .bool _ => true
  | .num _ => true
  | .str s => s.all (fun c => decide (c < 65536))
  | .arr l => jsonWfElems l
  | .obj fs => jsonWfMembers fs

def jsonWfElems : List Json → Bool
  | [] => true
  | v :: vs => jsonWf v && jsonWfElems vs

def jsonWfMembers : List (List Nat × Json) → Bool
  | [] => true
  | (k, v) :: fs => k.all (fun c => decide (c < 65536)) && jsonWf v && jsonWfMembers fs

end

/-! ### Transform registry and dispatcher
(src/unnamed/part_001 `AvailableMethods`,
src/src/EncryptionMethod/EncryptionMethod.js). -/
/-- One registry entry: persisted code, name, and the strategy class's two
operations (each taking the secret the strategy is constructed with). -/
structure MethodEntry where
  code : Nat
  name : String
  encryptImpl : List Nat → List Nat → List Nat
  decryptImpl : List Nat → List Nat → List Nat

/-- The registry (src/unnamed/part_001): codes 1, 2, 3 bound to the
strategies' static names `xor`, `aes-like`, `caesar`. -/
def AvailableMethods : List MethodEntry :=
  [⟨1, "xor", XOR.encrypt, XOR.decrypt⟩,
   ⟨2, "aes-like", AES.encrypt, AES.decrypt⟩,
   ⟨3, "caesar", Caesar.encrypt, Caesar.decrypt⟩]

namespace EncryptionMethod

/-- `getEncryptionMethodCode`: the code of a named method, `0` when the
name is absent (or `null`). -/
def getEncryptionMethodCode (method : Option String) : Nat :=
  match method with
  | none => 0
  | some m =>
    match AvailableMethods.find? (fun e => e.name == m) with
    | none => 0
    | some e => e.code

/-- `getEncryptionMethodName`: the name registered at a code, absent
(`null`) when the code is unknown. -/
def getEncryptionMethodName (methodCode : Nat) : Option String :=
  (AvailableMethods.find? (fun e => e.code == methodCode)).map (fun e => e.name)

/-- `EncryptionMethod.encrypt`: find the strategy by name (no-op fallback
when unknown), construct it with the secret and run its `encrypt` on the
sub-slice of the buffer from `metaLength` on, in place. -/
def encrypt (secret : List Nat) (metaLength : Nat) (buffer : List Nat)
    (method : String) : List Nat :=
  match AvailableMethods.find? (fun e => e.name == method) with
  | none => buffer
  | some e => buffer.take metaLength ++ e.encryptImpl secret (buffer.drop metaLength)

/-- `EncryptionMethod.decrypt`: find the strategy by code (no-op fallback
when unknown), construct it with the secret and run its `decrypt` on the
sub-slice from `metaLength` on, in place. -/
def decrypt (secret : List Nat) (metaLength : Nat) (buffer : List Nat)
    (methodCode : Nat) : List Nat :=
  match AvailableMethods.find? (fun e => e.code == methodCode) with
  | none => buffer
  | some e => buffer.take metaLength ++ e.decryptImpl secret (buffer.drop metaLength)

end EncryptionMethod

/-! ### The envelope codec (src/src/binary-pack.js). -/
/-- JS truthiness of an optional string: `null` and the empty string are
falsy. -/
def truthyStr (s : Option (List Nat)) : Bool :=
  match s with
  | none => false
  | some s => !s.isEmpty

/-- JS truthiness of an optional method name. -/
def truthyName (m : Option String) : Bool :=
  match m with
  | none => false
  | some m => !m.isEmpty

/-- A constructed `BinaryPack` instance: the configured secret and method
name, immutable after construction. -/
structure Packer where
  secret : Option (List Nat)
  encryptionMethod : Option String

inductive ConfigError where
  | configError
  | unsupportedMethod
  deriving DecidableEq

/-- The constructor's validation (src/src/binary-pack.js): a secret
requires a method, a method requires a secret, and the method must be
registered. -/
def BinaryPack.new (secret : Option (List Nat)) (encryptionMethod : Option String) :
    Except ConfigError Packer :=
  if truthyStr secret && !truthyName encryptionMethod then .error .configError
  else if truthyName encryptionMethod && !truthyStr secret then .error .configError
  else if truthyName encryptionMethod &&
      !((AvailableMethods.map (fun e => e.name)).contains
        (encryptionMethod.getD "")) then
    .error .unsupportedMethod
  else .ok ⟨secret, encryptionMethod⟩

/-- `setUint32` big-endian: the four bytes written for a (wrapped) 32-bit
length. -/
def be32 (n : Nat) : List Nat :=
  [n / 16777216 % 256, n / 65536 % 256, n / 256 % 256, n % 256]

/-- `DataView.getUint8`: fails with a `RangeError` outside the buffer. -/
def readU8 (buf : List Nat) (off : Nat) : Option Nat := buf.get? off

/-- `DataView.getUint32` big-endian. -/
def readU32be (buf : List Nat) (off : Nat) : Option Nat :=
  match buf.get? off, buf.get? (off + 1), buf.get? (off + 2), buf.get? (off + 3) with
  | some b0, some b1, some b2, some b3 => some (b0 * 16777216 + b1 * 65536 + b2 * 256 + b3)
  | _, _, _, _ => none

/-- `BinaryPack.pack`: serialize to JSON text, UTF-8-encode, prepend the
6-byte header (version, method code, big-endian payload length), then
apply the configured transform to the payload region only. -/
def BinaryPack.pack (p : Packer) (data : Json) : List Nat :=
  let jsonString := render data
  let stringBytes := utf8Encode jsonString
  let methodCode := EncryptionMethod.getEncryptionMethodCode p.encryptionMethod
  let buffer := 1 :: methodCode :: (be32 stringBytes.length ++ stringBytes)
  if truthyStr p.secret && truthyName p.encryptionMethod then
    EncryptionMethod.encrypt (p.secret.getD []) 6 buffer (p.encryptionMethod.getD "")
  else buffer

inductive UnpackError where
  | rangeError
  | formatVersionMismatch
  | methodMismatch
  | invalidLength
  | jsonError
  deriving DecidableEq

/-- The body of `BinaryPack.unpack`, operating on the private copy of the
caller's buffer: version check, then (when a secret and method are
configured) method check and in-place decrypt, then length check, then
UTF-8 decode and JSON parse of the payload slice. -/
def BinaryPack.unpackCore (p : Packer) (bufferCopy : List Nat) : Except UnpackError Json :=
  match readU8 bufferCopy 0 with
  | none => .error .rangeError
  | some version =>
    if version ≠ 1 then .error .formatVersionMismatch
    else
      match readU8 bufferCopy 1 with
      | none => .error .rangeError
      | some methodCode =>
        let step : Except UnpackError (List Nat) :=
          if truthyStr p.secret && truthyName p.encryptionMethod then
            if p.encryptionMethod ≠ EncryptionMethod.getEncryptionMethodName methodCode then
              .error .methodMismatch
            else
              .ok (EncryptionMethod.decrypt (p.secret.getD []) 6 bufferCopy methodCode)
          else .ok bufferCopy
        match step with
        | .error e => .error e
        | .ok buf2 =>
          match readU32be buf2 2 with
          | none => .error .rangeError
          | some dataLength =>
            if dataLength > buf2.length - 6 then .error .invalidLength
            else
              match jsonParse (utf8Decode ((buf2.drop 6).take dataLength)) with
              | none => .error .jsonError
              | some v => .ok v

/-- `BinaryPack.unpack` as seen by the caller: the body runs on
`buffer.slice(0)`, a private copy, and the caller's buffer is returned
unchanged alongside the result. -/
def BinaryPack.unpack (p : Packer) (buffer : List Nat) :
    Except UnpackError Json × List Nat :=
  let bufferCopy := List.drop 0 buffer
  (BinaryPack.unpackCore p bufferCopy, buffer)

/-- The tail of the `unpack` pipeline after the version/method phase:
length read and check, payload slice, decode, parse. -/
def unpackTail (buf2 : List Nat) : Except UnpackError Json :=
  match readU32be buf2 2 with
  | none => .error .rangeError
  | some dataLength =>
    if dataLength > buf2.length - 6 then .error .invalidLength
    else
      match jsonParse (utf8Decode ((buf2.drop 6).take dataLength)) with
      | none => .error .jsonError
      | some v => .ok v

/-! ### Theorems -/

theorem toInt32_spec (a : Int) :
    (toInt32 a) % 4294967296 = a % 4294967296 ∧
      -2147483648 ≤ toInt32 a ∧ toInt32 a < 2147483648 := by
  unfold toInt32 Int.bmod
  have hm : ((4294967296 : Nat) : Int) = (4294967296 : Int) := by norm_num
  rw [hm]
  norm_num
  split <;> omega

theorem toInt32_emod_32 (a : Int) : (toInt32 a) % 4294967296 = a % 4294967296 :=
  (toInt32_spec a).1

theorem toInt32_emod_256 (a : Int) : (toInt32 a) % 256 = a % 256 := by
  have h : ((toInt32 a) % 4294967296) % 256 = (a % 4294967296) % 256 := by
    rw [toInt32_emod_32]
  have d : (256 : Int) ∣ 4294967296 := by norm_num
  rwa [Int.emod_emod_of_dvd _ d, Int.emod_emod_of_dvd _ d] at h

theorem toUint8_toInt32 (a : Int) : toUint8 (toInt32 a) = toUint8 a := by
  unfold toUint8
  rw [toInt32_emod_256]

theorem toInt32_eq_self {a : Int} (h0 : -2147483648 ≤ a) (h1 : a < 2147483648) :
    toInt32 a = a := by
  unfold toInt32 Int.bmod
  have hm : ((4294967296 : Nat) : Int) = (4294967296 : Int) := by norm_num
  rw [hm]
  norm_num
  split <;> omega

theorem toInt32_congr {a b : Int} (h : a % 4294967296 = b % 4294967296) :
    toInt32 a = toInt32 b := by
  unfold toInt32 Int.bmod
  have hm : ((4294967296 : Nat) : Int) = (4294967296 : Int) := by norm_num
  rw [hm, h]

namespace Hash

theorem step_eq (h : Int) (c : Nat) : step h c = toInt32 (31 * h + (c : Int)) := by
  unfold step
  apply toInt32_congr
  have h32 := toInt32_emod_32 (h * 32)
  omega

theorem foldl_step_eq (s : List Nat) : ∀ a : Int,
    s.foldl step (toInt32 a) = toInt32 (intFold s a) := by
  induction s with
  | nil => intro a; simp [intFold, List.foldl]
  | cons c rest ih =>
    intro a
    have hstep : step (toInt32 a) c = toInt32 (31 * a + (c : Int)) := by
      rw [step_eq]
      apply toInt32_congr
      have := toInt32_emod_32 a
      omega
    simp only [intFold, List.foldl, hstep]
    exact ih (31 * a + (c : Int))

theorem intFold_congr (s : List Nat) : ∀ x y : Int, x % 4294967296 = y % 4294967296 →
    intFold s x % 4294967296 = intFold s y % 4294967296 := by
  induction s with
  | nil => intro x y hxy; simpa [intFold] using hxy
  | cons c rest ih =>
    intro x y hxy
    simp only [intFold, List.foldl]
    exact ih (31 * x + (c : Int)) (31 * y + (c : Int)) (by omega)

theorem intFold_specAcc (s : List Nat) : ∀ a : Nat,
    intFold s ((a : Nat) : Int) % 4294967296 =
      ((s.foldl (fun h c => (31 * h + c) % 4294967296) a : Nat) : Int) % 4294967296 := by
  induction s with
  | nil => intro a; simp [intFold, List.foldl]
  | cons c rest ih =>
    intro a
    have hcast : (31 * (a : Int) + (c : Int)) % 4294967296 =
        (((((31 * a + c) % 4294967296 : Nat)) : Int)) % 4294967296 := by
      have : ((((31 * a + c) % 4294967296 : Nat)) : Int) = ((31 * a + c : Nat) : Int) % 4294967296 := by
        push_cast
        omega
      rw [this]
      push_cast
      omega
    have := intFold_congr rest (31 * (a : Int) + (c : Int))
      ((((31 * a + c) % 4294967296 : Nat)) : Int) hcast
    show intFold rest (31 * (a : Int) + (c : Int)) % 4294967296 =
      ((rest.foldl (fun h c => (31 * h + c) % 4294967296) ((31 * a + c) % 4294967296) : Nat) : Int) %
        4294967296
    calc intFold rest (31 * (a : Int) + (c : Int)) % 4294967296
        = intFold rest ((((31 * a + c) % 4294967296 : Nat)) : Int) % 4294967296 := this
      _ = _ := ih ((31 * a + c) % 4294967296)

theorem secretStr_eq_specHash (s : List Nat) : secretStr s = specHash s := by
  unfold secretStr specHash
  have hz : toInt32 0 = 0 := toInt32_eq_self (by norm_num) (by norm_num)
  by_cases hs : s.length = 0
  · have : s = [] := List.length_eq_zero.mp hs
    subst this
    simp [specAcc, List.foldl, hz]
  · simp only [hs, if_false]
    have h0 : (0 : Int) = toInt32 0 := hz.symm
    rw [h0, foldl_step_eq]
    apply congrArg Int.natAbs
    apply toInt32_congr
    have := intFold_specAcc s 0
    simpa [specAcc] using this

end Hash

/-- C5: `Hash.secret` is a pure function from strings to unsigned 32-bit
integers; it folds `h = (h*31 + codePoint) mod 2^32` over the characters in
order with wraparound 32-bit arithmetic and returns the non-negative
magnitude of the final accumulator; the empty string maps to 0, and a
non-string input fails with `InvalidInput`. -/
theorem claim_C5_hash_contract :
    (∀ s : List Nat, Hash.secret (.str s) = .ok (Hash.specHash s)) ∧
    Hash.secret (.str []) = .ok 0 ∧
    Hash.secret .nonString = .error .invalidInput ∧
    (∀ s : List Nat, Hash.specHash s < 4294967296) := by
  refine ⟨?_, ?_, ?_, ?_⟩
  · intro s
    show Except.ok (Hash.secretStr s) = _
    rw [Hash.secretStr_eq_specHash]
  · show Except.ok (Hash.secretStr []) = _
    rfl
  · rfl
  · intro s
    unfold Hash.specHash
    have h := toInt32_spec ((Hash.specAcc s : Nat) : Int)
    omega

theorem utf8Encode_bytes_lt (s : List Nat) (h : ∀ c ∈ s, c < 65536) :
    ∀ b ∈ utf8Encode s, b < 256 := by
  match s with
  | [] => intro b hb; simp [utf8Encode] at hb
  | c :: rest =>
    have hc := h c (List.mem_cons_self _ _)
    have hrest : ∀ x ∈ rest, x < 65536 := fun x hx => h x (List.mem_cons_of_mem _ hx)
    rw [utf8Encode.eq_def]
    simp only
    split
    · intro b hb
      rcases List.mem_cons.mp hb with hb | hb
      · omega
      · exact utf8Encode_bytes_lt rest hrest b hb
    · split
      · intro b hb
        rcases List.mem_cons.mp hb with hb | hb
        · omega
        rcases List.mem_cons.mp hb with hb | hb
        · omega
        · exact utf8Encode_bytes_lt rest hrest b hb
      · split
        · split
          · rename_i c2 rest2
            have hc2 : c2 < 65536 := hrest c2 (List.mem_cons_self _ _)
            have hrest2 : ∀ x ∈ rest2, x < 65536 := fun x hx =>
              hrest x (List.mem_cons_of_mem _ hx)
            split
            · intro b hb
              rcases List.mem_cons.mp hb with hb | hb
              · omega
              rcases List.mem_cons.mp hb with hb | hb
              · omega
              rcases List.mem_cons.mp hb with hb | hb
              · omega
              rcases List.mem_cons.mp hb with hb | hb
              · omega
              · exact utf8Encode_bytes_lt rest2 hrest2 b hb
            · intro b hb
              rcases List.mem_cons.mp hb with hb | hb
              · omega
              rcases List.mem_cons.mp hb with hb | hb
              · omega
              rcases List.mem_cons.mp hb with hb | hb
              · omega
              · exact utf8Encode_bytes_lt (c2 :: rest2) hrest b hb
          · intro b hb
            rcases List.mem_cons.mp hb with hb | hb
            · omega
            rcases List.mem_cons.mp hb with hb | hb
            · omega
            rcases List.mem_cons.mp hb with hb | hb
            · omega
            · simp at hb
        · split
          · intro b hb
            rcases List.mem_cons.mp hb with hb | hb
            · omega
            rcases List.mem_cons.mp hb with hb | hb
            · omega
            rcases List.mem_cons.mp hb with hb | hb
            · omega
            · exact utf8Encode_bytes_lt rest hrest b hb
          · intro b hb
            rcases List.mem_cons.mp hb with hb | hb
            · omega
            rcases List.mem_cons.mp hb with hb | hb
            · omega
            rcases List.mem_cons.mp hb with hb | hb
            · omega
            · exact utf8Encode_bytes_lt rest hrest b hb
termination_by s.length
decreasing_by all_goals simp_all [List.length_cons] <;> omega

theorem utf8Encode_ne_nil {s : List Nat} (h : s ≠ []) : utf8Encode s ≠ [] := by
  match s with
  | [] => exact absurd rfl h
  | c :: rest =>
    rw [utf8Encode.eq_def]
    simp only
    split
    · simp
    · split
      · simp
      · split
        · split
          · split <;> simp
          · simp
        · split <;> simp

/-! ### Byte-level facts about the JS coercions -/
theorem xor_mod_256 (a b : Nat) : (a ^^^ b) % 256 = (a % 256) ^^^ (b % 256) := by
  have h : ∀ x : Nat, x % 256 = x % 2 ^ 8 := fun x => by norm_num
  rw [h, h, h]
  apply Nat.eq_of_testBit_eq
  intro i
  simp only [Nat.testBit_mod_two_pow, Nat.testBit_xor]
  by_cases hi : i < 8 <;> simp [hi]

theorem toUint8_lt (a : Int) : toUint8 a < 256 := by
  unfold toUint8
  have h1 : 0 ≤ a % 256 := Int.emod_nonneg a (by norm_num)
  have h2 : a % 256 < 256 := Int.emod_lt_of_pos a (by norm_num)
  omega

theorem toUint32_natCast (x : Nat) (hx : x < 4294967296) : toUint32 (x : Int) = x := by
  unfold toUint32
  rw [Int.emod_eq_of_lt (by positivity) (by exact_mod_cast hx)]
  simp

theorem toUint8_ofNat (p : Nat) : toUint8 ((p : Nat) : Int) = p % 256 := by
  unfold toUint8
  omega

/-- The byte stored by `x[i] = a ^ b` depends only on the low 8 bits of the
operands' 32-bit patterns. -/
theorem toUint8_jsXor32 (a b : Int) :
    toUint8 (jsXor32 a b) = (toUint32 a % 256) ^^^ (toUint32 b % 256) := by
  unfold jsXor32
  rw [toUint8_toInt32, toUint8_ofNat, xor_mod_256]

/-- On single bytes, the JS xor-and-store is plain `Nat.xor`. -/
theorem toUint8_jsXor32_byte {x y : Nat} (hx : x < 256) (hy : y < 256) :
    toUint8 (jsXor32 (x : Int) (y : Int)) = x ^^^ y := by
  rw [toUint8_jsXor32, toUint32_natCast x (by omega), toUint32_natCast y (by omega),
    Nat.mod_eq_of_lt hx, Nat.mod_eq_of_lt hy]

theorem jsGet_lt {l : List Nat} (hl : ∀ b ∈ l, b < 256) (i : Nat) : jsGet l i < 256 := by
  unfold jsGet
  by_cases hi : i < l.length
  · rw [List.getD_eq_getElem?_getD, List.getElem?_eq_getElem hi]
    exact hl _ (List.getElem_mem hi)
  · rw [List.getD_eq_getElem?_getD, List.getElem?_eq_none (by omega)]
    simp

theorem loopMap_length (f : Nat → Nat → Nat) : ∀ (i : Nat) (l : List Nat),
    (loopMap f i l).length = l.length := by
  intro i l
  induction l generalizing i with
  | nil => rfl
  | cons b rest ih => simp [loopMap, ih]

theorem loopMap_inverse (f g : Nat → Nat → Nat)
    (hfg : ∀ i b, b < 256 → g i (f i b) = b) :
    ∀ (i : Nat) (l : List Nat), (∀ b ∈ l, b < 256) →
      loopMap g i (loopMap f i l) = l := by
  intro i l
  induction l generalizing i with
  | nil => intro _; rfl
  | cons b rest ih =>
    intro hl
    simp only [loopMap]
    rw [hfg i b (hl b (List.mem_cons_self _ _)),
      ih (i + 1) (fun x hx => hl x (List.mem_cons_of_mem _ hx))]

theorem loopMap_lt (f : Nat → Nat → Nat) (hf : ∀ i b, f i b < 256) :
    ∀ (i : Nat) (l : List Nat), ∀ b ∈ loopMap f i l, b < 256 := by
  intro i l
  induction l generalizing i with
  | nil => intro b hb; simp [loopMap] at hb
  | cons x rest ih =>
    intro b hb
    rcases List.mem_cons.mp hb with hb | hb
    · rw [hb]; exact hf i x
    · exact ih (i + 1) b hb

theorem tmod_emod_256 (a : Int) : (Int.tmod a 256) % 256 = a % 256 := by
  have h := Int.tdiv_add_tmod a 256
  omega

theorem jsXor32_byte {x y : Nat} (hx : x < 256) (hy : y < 256) :
    jsXor32 (x : Int) (y : Int) = ((x ^^^ y : Nat) : Int) := by
  unfold jsXor32
  rw [toUint32_natCast x (by omega), toUint32_natCast y (by omega)]
  have hxor : x ^^^ y < 256 := Nat.xor_lt_two_pow (n := 8) (by omega) (by omega)
  exact toInt32_eq_self (by omega) (by omega)

theorem xor_inverse_pointwise {k b : Nat} (hk : k < 256) (hb : b < 256) :
    toUint8 (jsXor32 ((toUint8 (jsXor32 (b : Int) (k : Int))) : Int) (k : Int)) = b := by
  rw [toUint8_jsXor32_byte hb hk]
  have hxk : b ^^^ k < 256 := Nat.xor_lt_two_pow (n := 8) (by omega) (by omega)
  rw [toUint8_jsXor32_byte hxk hk]
  exact Nat.xor_cancel_right k b

/-- C8: the XOR strategy is an involution on byte slices — applying
`XOR.encrypt` twice with the same (nonempty JS-string) secret restores the
original bytes — and `XOR.decrypt` is the identical operation to
`XOR.encrypt`. -/
theorem claim_C8_xor_involution (secret dataPart : List Nat)
    (hne : secret ≠ []) (hsec : ∀ c ∈ secret, c < 65536)
    (hdata : ∀ b ∈ dataPart, b < 256) :
    XOR.encrypt secret (XOR.encrypt secret dataPart) = dataPart ∧
      XOR.decrypt = XOR.encrypt := by
  constructor
  · unfold XOR.encrypt
    apply loopMap_inverse
    · intro i b hb
      have hk : jsGet (utf8Encode secret) (i % (utf8Encode secret).length) < 256 :=
        jsGet_lt (utf8Encode_bytes_lt secret hsec) _
      exact xor_inverse_pointwise hk hb
    · exact hdata
  · rfl

/-- Closed-form instance of C8 at a concrete secret and byte slice. -/
theorem claim_C8_xor_involution_witness :
    XOR.encrypt [97] (XOR.encrypt [97] [0, 255, 7]) = [0, 255, 7] ∧
      XOR.decrypt = XOR.encrypt :=
  claim_C8_xor_involution [97] [0, 255, 7] (by decide) (by decide) (by decide)

/-- C9: the Caesar strategy's output depends on the secret only through
`hash(secret) mod 26`: secrets with equal hash residue encrypt every byte
slice identically. -/
theorem claim_C9_caesar_key_collision (s1 s2 dataPart : List Nat)
    (h : Hash.secretStr s1 % 26 = Hash.secretStr s2 % 26) :
    Caesar.encrypt s1 dataPart = Caesar.encrypt s2 dataPart := by
  unfold Caesar.encrypt Caesar.shiftOf
  rw [h]

/-- Closed-form instance of C9: `"a"` (code 97) and `"{"` (code 123) have
equal hash residue mod 26 and encrypt equally. -/
theorem claim_C9_caesar_key_collision_witness :
    Hash.secretStr [97] % 26 = Hash.secretStr [123] % 26 ∧
      Caesar.encrypt [97] [0, 10, 250] = Caesar.encrypt [123] [0, 10, 250] :=
  ⟨by decide, claim_C9_caesar_key_collision [97] [123] [0, 10, 250] (by decide)⟩

namespace AES

theorem keyByte_lt {key : List Nat} (hkey : ∀ b ∈ key, b < 256) (r i : Nat) :
    keyByte key r i < 256 :=
  jsGet_lt hkey _

theorem encByte_eq {key : List Nat} (hkey : ∀ b ∈ key, b < 256)
    (r i b : Nat) (hb : b < 256) :
    encByte key r i b = ((b ^^^ keyByte key r i) + r + i) % 256 := by
  unfold encByte
  set k := keyByte key r i with hkdef
  have hk : k < 256 := keyByte_lt hkey r i
  rw [jsXor32_byte hb hk]
  have hxk : b ^^^ k < 256 := Nat.xor_lt_two_pow (n := 8) (by omega) (by omega)
  have hcast : ((b ^^^ k : Nat) : Int) + (r : Int) + (i : Int) =
      (((b ^^^ k) + r + i : Nat) : Int) := by push_cast; ring
  rw [hcast, Int.tmod_eq_emod (by positivity) (by norm_num)]
  unfold toUint8
  omega

theorem decByte_encByte {key : List Nat} (hkey : ∀ b ∈ key, b < 256)
    (r i b : Nat) (hb : b < 256) :
    decByte key r i (encByte key r i b) = b := by
  rw [encByte_eq hkey r i b hb]
  unfold decByte
  set k := keyByte key r i with hkdef
  have hk : k < 256 := keyByte_lt hkey r i
  have hxk : b ^^^ k < 256 := Nat.xor_lt_two_pow (n := 8) (by omega) (by omega)
  set y := ((b ^^^ k) + r + i) % 256 with hydef
  have hy : y < 256 := Nat.mod_lt _ (by norm_num)
  set t : Int := (y : Int) - (r : Int) - (i : Int) + 256 with htdef
  have ht256 : t % 256 = ((b ^^^ k : Nat) : Int) := by
    have hymod : (y : Int) % 256 = (((b ^^^ k) + r + i : Nat) : Int) % 256 := by
      have : ((b ^^^ k) + r + i) % 256 = y := rfl
      omega
    push_cast at hymod ⊢
    omega
  rw [toUint8_jsXor32]
  have htm : (Int.tmod t 256) % 256 = ((b ^^^ k : Nat) : Int) := by
    rw [tmod_emod_256, ht256]
  have h32 : toUint32 (Int.tmod t 256) % 256 = b ^^^ k := by
    unfold toUint32
    have hdvd : ((Int.tmod t 256) % 4294967296) % 256 = (Int.tmod t 256) % 256 :=
      Int.emod_emod_of_dvd _ (by norm_num)
    have hnn : 0 ≤ (Int.tmod t 256) % 4294967296 := Int.emod_nonneg _ (by norm_num)
    omega
  rw [h32, toUint32_natCast k (by omega), Nat.mod_eq_of_lt hk]
  exact Nat.xor_cancel_right k b

theorem round_inverse {key : List Nat} (hkey : ∀ b ∈ key, b < 256)
    (r : Nat) (l : List Nat) (hl : ∀ b ∈ l, b < 256) :
    loopMap (decByte key r) 0 (loopMap (encByte key r) 0 l) = l :=
  loopMap_inverse _ _ (fun i b hb => decByte_encByte hkey r i b hb) 0 l hl

end AES

/-- C4: the AES-like strategy's `decrypt` inverts its `encrypt`: for every
byte slice of length 0–256 and every (JS-string) secret of 1–64 characters,
decrypting the encryption with the same secret restores the bytes. -/
theorem claim_C4_aes_like_inverse (secret dataPart : List Nat)
    (hlen1 : 1 ≤ secret.length) (hlen2 : secret.length ≤ 64)
    (hsec : ∀ c ∈ secret, c < 65536)
    (hdlen : dataPart.length ≤ 256) (hdata : ∀ b ∈ dataPart, b < 256) :
    AES.decrypt secret (AES.encrypt secret dataPart) = dataPart := by
  simp only [AES.encrypt, AES.decrypt]
  have hkey : ∀ b ∈ utf8Encode secret, b < 256 := utf8Encode_bytes_lt secret hsec
  have henc : ∀ (r : Nat) (l : List Nat), ∀ b ∈ loopMap (AES.encByte (utf8Encode secret) r) 0 l,
      b < 256 := fun r l => loopMap_lt _ (fun i b => toUint8_lt _) 0 l
  rw [AES.round_inverse hkey 2 _ (henc 1 _), AES.round_inverse hkey 1 _ (henc 0 _),
    AES.round_inverse hkey 0 _ hdata]

/-- Closed-form instance of C4 at a concrete secret and byte slice. -/
theorem claim_C4_aes_like_inverse_witness :
    AES.decrypt [97] (AES.encrypt [97] [0, 255, 128]) = [0, 255, 128] :=
  claim_C4_aes_like_inverse [97] [0, 255, 128] (by decide) (by decide) (by decide)
    (by decide) (by decide)

theorem skipWs_not_ws {c : Nat} (h : isJsonWs c = false) (l : List Nat) :
    skipWs (c :: l) = c :: l := by
  unfold skipWs
  rw [h]
  simp

theorem psb_close (rest : List Nat) : parseStringBody (34 :: rest) = some ([], rest) := by
  rw [parseStringBody.eq_def]
  norm_num

theorem psb_esc_quote (tail : List Nat) :
    parseStringBody (92 :: 34 :: tail) = (parseStringBody tail).map (fun p => (34 :: p.1, p.2)) := by
  rw [parseStringBody.eq_def]
  norm_num

theorem psb_esc_backslash (tail : List Nat) :
    parseStringBody (92 :: 92 :: tail) = (parseStringBody tail).map (fun p => (92 :: p.1, p.2)) := by
  rw [parseStringBody.eq_def]
  norm_num

theorem psb_esc_b (tail : List Nat) :
    parseStringBody (92 :: 98 :: tail) = (parseStringBody tail).map (fun p => (8 :: p.1, p.2)) := by
  rw [parseStringBody.eq_def]
  norm_num

theorem psb_esc_t (tail : List Nat) :
    parseStringBody (92 :: 116 :: tail) = (parseStringBody tail).map (fun p => (9 :: p.1, p.2)) := by
  rw [parseStringBody.eq_def]
  norm_num

theorem psb_esc_n (tail : List Nat) :
    parseStringBody (92 :: 110 :: tail) = (parseStringBody tail).map (fun p => (10 :: p.1, p.2)) := by
  rw [parseStringBody.eq_def]
  norm_num

theorem psb_esc_f (tail : List Nat) :
    parseStringBody (92 :: 102 :: tail) = (parseStringBody tail).map (fun p => (12 :: p.1, p.2)) := by
  rw [parseStringBody.eq_def]
  norm_num

theorem psb_esc_r (tail : List Nat) :
    parseStringBody (92 :: 114 :: tail) = (parseStringBody tail).map (fun p => (13 :: p.1, p.2)) := by
  rw [parseStringBody.eq_def]
  norm_num

theorem parseHex_hexDigit {d : Nat} (hd : d < 16) : parseHexDigit (hexDigit d) = some d := by
  interval_cases d <;> rfl

theorem psb_esc_hex {h1 h2 h3 h4 d1 d2 d3 d4 : Nat}
    (e1 : parseHexDigit h1 = some d1) (e2 : parseHexDigit h2 = some d2)
    (e3 : parseHexDigit h3 = some d3) (e4 : parseHexDigit h4 = some d4) (r : List Nat) :
    parseStringBody (92 :: 117 :: h1 :: h2 :: h3 :: h4 :: r) =
      (parseStringBody r).map (fun p => ((4096 * d1 + 256 * d2 + 16 * d3 + d4) :: p.1, p.2)) := by
  rw [parseStringBody.eq_def]
  norm_num
  rw [e1, e2, e3, e4]

theorem psb_lit {c : Nat} (h32 : 32 ≤ c) (hq : c ≠ 34) (hbs : c ≠ 92) (rest : List Nat) :
    parseStringBody (c :: rest) = (parseStringBody rest).map (fun p => (c :: p.1, p.2)) := by
  rw [parseStringBody.eq_def]
  simp only [if_neg hq, if_neg hbs, if_neg (by omega : ¬ c < 32)]

theorem hex4_val {c : Nat} (hc : c < 65536) :
    4096 * (c / 4096 % 16) + 256 * (c / 256 % 16) + 16 * (c / 16 % 16) + c % 16 = c := by
  omega

theorem q_nil : quoteJSONString [] = [] := by
  rw [quoteJSONString.eq_def]

theorem q_quote (tl : List Nat) : quoteJSONString (34 :: tl) = 92 :: 34 :: quoteJSONString tl := by
  rw [quoteJSONString.eq_def]
  norm_num

theorem q_backslash (tl : List Nat) :
    quoteJSONString (92 :: tl) = 92 :: 92 :: quoteJSONString tl := by
  rw [quoteJSONString.eq_def]
  norm_num

theorem q_b (tl : List Nat) : quoteJSONString (8 :: tl) = 92 :: 98 :: quoteJSONString tl := by
  rw [quoteJSONString.eq_def]
  norm_num

theorem q_t (tl : List Nat) : quoteJSONString (9 :: tl) = 92 :: 116 :: quoteJSONString tl := by
  rw [quoteJSONString.eq_def]
  norm_num

theorem q_n (tl : List Nat) : quoteJSONString (10 :: tl) = 92 :: 110 :: quoteJSONString tl := by
  rw [quoteJSONString.eq_def]
  norm_num

theorem q_f (tl : List Nat) : quoteJSONString (12 :: tl) = 92 :: 102 :: quoteJSONString tl := by
  rw [quoteJSONString.eq_def]
  norm_num

theorem q_r (tl : List Nat) : quoteJSONString (13 :: tl) = 92 :: 114 :: quoteJSONString tl := by
  rw [quoteJSONString.eq_def]
  norm_num

theorem q_ctl {c : Nat} (hlt : c < 32) (h8 : c ≠ 8) (h9 : c ≠ 9) (h10 : c ≠ 10)
    (h12 : c ≠ 12) (h13 : c ≠ 13) (tl : List Nat) :
    quoteJSONString (c :: tl) = 92 :: 117 :: (hex4 c ++ quoteJSONString tl) := by
  rw [quoteJSONString.eq_def]
  simp only [if_neg (by omega : ¬ c = 34), if_neg (by omega : ¬ c = 92), if_neg h8, if_neg h9,
    if_neg h10, if_neg h12, if_neg h13, if_pos hlt]

theorem q_pair {c c2 : Nat} (hhi : 55296 ≤ c ∧ c ≤ 56319) (hlo : 56320 ≤ c2 ∧ c2 ≤ 57343)
    (tl : List Nat) :
    quoteJSONString (c :: c2 :: tl) = c :: c2 :: quoteJSONString tl := by
  rw [quoteJSONString.eq_def]
  simp only [if_neg (by omega : ¬ c = 34), if_neg (by omega : ¬ c = 92),
    if_neg (by omega : ¬ c = 8), if_neg (by omega : ¬ c = 9), if_neg (by omega : ¬ c = 10),
    if_neg (by omega : ¬ c = 12), if_neg (by omega : ¬ c = 13),
    if_neg (by omega : ¬ c < 32), if_pos hhi, if_pos hlo]

theorem q_hi_unpaired {c c2 : Nat} (hhi : 55296 ≤ c ∧ c ≤ 56319)
    (hnlo : ¬(56320 ≤ c2 ∧ c2 ≤ 57343)) (tl : List Nat) :
    quoteJSONString (c :: c2 :: tl) = 92 :: 117 :: (hex4 c ++ quoteJSONString (c2 :: tl)) := by
  rw [quoteJSONString.eq_def]
  simp only [if_neg (by omega : ¬ c = 34), if_neg (by omega : ¬ c = 92),
    if_neg (by omega : ¬ c = 8), if_neg (by omega : ¬ c = 9), if_neg (by omega : ¬ c = 10),
    if_neg (by omega : ¬ c = 12), if_neg (by omega : ¬ c = 13),
    if_neg (by omega : ¬ c < 32), if_pos hhi, if_neg hnlo]

theorem q_hi_nil {c : Nat} (hhi : 55296 ≤ c ∧ c ≤ 56319) :
    quoteJSONString [c] = 92 :: 117 :: hex4 c := by
  rw [quoteJSONString.eq_def]
  simp only [if_neg (by omega : ¬ c = 34), if_neg (by omega : ¬ c = 92),
    if_neg (by omega : ¬ c = 8), if_neg (by omega : ¬ c = 9), if_neg (by omega : ¬ c = 10),
    if_neg (by omega : ¬ c = 12), if_neg (by omega : ¬ c = 13),
    if_neg (by omega : ¬ c < 32), if_pos hhi]

theorem q_lo {c : Nat} (hlo : 56320 ≤ c ∧ c ≤ 57343) (tl : List Nat) :
    quoteJSONString (c :: tl) = 92 :: 117 :: (hex4 c ++ quoteJSONString tl) := by
  rw [quoteJSONString.eq_def]
  simp only [if_neg (by omega : ¬ c = 34), if_neg (by omega : ¬ c = 92),
    if_neg (by omega : ¬ c = 8), if_neg (by omega : ¬ c = 9), if_neg (by omega : ¬ c = 10),
    if_neg (by omega : ¬ c = 12), if_neg (by omega : ¬ c = 13),
    if_neg (by omega : ¬ c < 32), if_neg (by omega : ¬ (55296 ≤ c ∧ c ≤ 56319)), if_pos hlo]

theorem q_lit {c : Nat} (h32 : 32 ≤ c) (h34 : c ≠ 34) (h92 : c ≠ 92)
    (hnsur : ¬ (55296 ≤ c ∧ c ≤ 57343)) (tl : List Nat) :
    quoteJSONString (c :: tl) = c :: quoteJSONString tl := by
  rw [quoteJSONString.eq_def]
  simp only [if_neg h34, if_neg h92, if_neg (by omega : ¬ c = 8), if_neg (by omega : ¬ c = 9),
    if_neg (by omega : ¬ c = 10), if_neg (by omega : ¬ c = 12), if_neg (by omega : ¬ c = 13),
    if_neg (by omega : ¬ c < 32), if_neg (by omega : ¬ (55296 ≤ c ∧ c ≤ 56319)),
    if_neg (by omega : ¬ (56320 ≤ c ∧ c ≤ 57343))]

/-- The string-literal body parser inverts `QuoteJSONString`: reading the
escaped text up to the closing quote recovers the original code units. -/
theorem parseStringBody_quote (s : List Nat) : ∀ rest : List Nat,
    parseStringBody (quoteJSONString s ++ 34 :: rest) = some (s, rest) := by
  match s with
  | [] =>
    intro rest
    rw [q_nil, List.nil_append]
    exact psb_close rest
  | c :: tl =>
    intro rest
    have hex_step : ∀ (q : List Nat), c < 65536 →
        parseStringBody ((92 :: 117 :: (hex4 c ++ q)) ++ 34 :: rest) =
          (parseStringBody (q ++ 34 :: rest)).map (fun p => (c :: p.1, p.2)) := by
      intro q hc
      simp only [hex4, List.cons_append, List.nil_append, List.append_assoc]
      rw [psb_esc_hex (parseHex_hexDigit (by omega)) (parseHex_hexDigit (by omega))
        (parseHex_hexDigit (by omega)) (parseHex_hexDigit (by omega)), hex4_val hc]
    by_cases h34 : c = 34
    · subst h34
      rw [q_quote, List.cons_append, List.cons_append, psb_esc_quote,
        parseStringBody_quote tl rest]
      rfl
    by_cases h92 : c = 92
    · subst h92
      rw [q_backslash, List.cons_append, List.cons_append, psb_esc_backslash,
        parseStringBody_quote tl rest]
      rfl
    by_cases h8 : c = 8
    · subst h8
      rw [q_b, List.cons_append, List.cons_append, psb_esc_b, parseStringBody_quote tl rest]
      rfl
    by_cases h9 : c = 9
    · subst h9
      rw [q_t, List.cons_append, List.cons_append, psb_esc_t, parseStringBody_quote tl rest]
      rfl
    by_cases h10 : c = 10
    · subst h10
      rw [q_n, List.cons_append, List.cons_append, psb_esc_n, parseStringBody_quote tl rest]
      rfl
    by_cases h12 : c = 12
    · subst h12
      rw [q_f, List.cons_append, List.cons_append, psb_esc_f, parseStringBody_quote tl rest]
      rfl
    by_cases h13 : c = 13
    · subst h13
      rw [q_r, List.cons_append, List.cons_append, psb_esc_r, parseStringBody_quote tl rest]
      rfl
    by_cases hctl : c < 32
    · rw [q_ctl hctl h8 h9 h10 h12 h13, hex_step (quoteJSONString tl) (by omega),
        parseStringBody_quote tl rest]
      rfl
    by_cases hhi : 55296 ≤ c ∧ c ≤ 56319
    · match tl with
      | [] =>
        rw [q_hi_nil hhi,
          show (92 :: 117 :: hex4 c : List Nat) = 92 :: 117 :: (hex4 c ++ []) by simp,
          hex_step [] (by omega), List.nil_append, psb_close]
        rfl
      | c2 :: tl2 =>
        by_cases hlo : 56320 ≤ c2 ∧ c2 ≤ 57343
        · rw [q_pair hhi hlo, List.cons_append, List.cons_append,
            psb_lit (by omega) (by omega) (by omega),
            psb_lit (by omega) (by omega) (by omega),
            parseStringBody_quote tl2 rest]
          rfl
        · rw [q_hi_unpaired hhi hlo, hex_step (quoteJSONString (c2 :: tl2)) (by omega),
            parseStringBody_quote (c2 :: tl2) rest]
          rfl
    by_cases hlo : 56320 ≤ c ∧ c ≤ 57343
    · rw [q_lo hlo, hex_step (quoteJSONString tl) (by omega), parseStringBody_quote tl rest]
      rfl
    · rw [q_lit (by omega) h34 h92 (by omega), List.cons_append, psb_lit (by omega) h34 h92,
        parseStringBody_quote tl rest]
      rfl
termination_by s.length
decreasing_by all_goals simp_all [List.length_cons] <;> omega

theorem takeWhile_all_append {p : Nat → Bool} : ∀ {ds rest : List Nat},
    (∀ d ∈ ds, p d = true) → (ds ++ rest).takeWhile p = ds ++ rest.takeWhile p := by
  intro ds
  induction ds with
  | nil => intro rest _; simp
  | cons d tl ih =>
    intro rest h
    have hd : p d = true := h d (List.mem_cons_self _ _)
    simp only [List.cons_append, List.takeWhile_cons, hd, if_true]
    rw [ih (fun x hx => h x (List.mem_cons_of_mem _ hx))]

theorem dropWhile_all_append {p : Nat → Bool} : ∀ {ds rest : List Nat},
    (∀ d ∈ ds, p d = true) → (ds ++ rest).dropWhile p = rest.dropWhile p := by
  intro ds
  induction ds with
  | nil => intro rest _; simp
  | cons d tl ih =>
    intro rest h
    have hd : p d = true := h d (List.mem_cons_self _ _)
    simp only [List.cons_append, List.dropWhile_cons, hd, if_true]
    exact ih (fun x hx => h x (List.mem_cons_of_mem _ hx))

theorem natToDigits_all_digits (n : Nat) : ∀ d ∈ natToDigits n, 48 ≤ d ∧ d ≤ 57 := by
  rw [natToDigits]
  split
  · intro d hd
    simp only [List.mem_singleton] at hd
    omega
  · intro d hd
    rcases List.mem_append.mp hd with hd | hd
    · exact natToDigits_all_digits (n / 10) d hd
    · simp only [List.mem_singleton] at hd
      omega
termination_by n
decreasing_by omega

theorem natToDigits_ne_nil (n : Nat) : natToDigits n ≠ [] := by
  rw [natToDigits]
  split
  · simp
  · simp

theorem natToDigits_head_zero (n : Nat) : (natToDigits n).head? = some 48 → n = 0 := by
  rw [natToDigits]
  split
  · intro h
    simp only [List.head?_cons, Option.some.injEq] at h
    omega
  · intro h
    rw [List.head?_append_of_ne_nil _ (natToDigits_ne_nil (n / 10))] at h
    have := natToDigits_head_zero (n / 10) h
    omega
termination_by n
decreasing_by omega

theorem digitsVal_append_digit (ds : List Nat) (d : Nat) :
    digitsVal (ds ++ [d]) = 10 * digitsVal ds + (d - 48) := by
  unfold digitsVal
  rw [List.foldl_append]
  simp [Nat.mul_comm]

theorem digitsVal_natToDigits (n : Nat) : digitsVal (natToDigits n) = n := by
  rw [natToDigits]
  split
  · simp [digitsVal]
  · rw [digitsVal_append_digit, digitsVal_natToDigits (n / 10)]
    omega
termination_by n
decreasing_by omega

theorem SepOk.numSafe {r : List Nat} (h : SepOk r) : NumSafe r := by
  intro c r2 hr
  rcases h with h | ⟨c2, r3, hr2, hc⟩
  · rw [h] at hr; cases hr
  · rw [hr2] at hr
    injection hr with h1 h2
    subst h1
    unfold isDigit
    rcases hc with hc | hc | hc <;> subst hc <;> norm_num

theorem parseNumAbs_digits (n : Nat) (rest : List Nat) (hr : NumSafe rest) :
    parseNumAbs (natToDigits n ++ rest) = some (n, rest) := by
  have hdig : ∀ d ∈ natToDigits n, isDigit d = true := by
    intro d hd
    have := natToDigits_all_digits n d hd
    unfold isDigit
    simp
    omega
  have htake : (natToDigits n ++ rest).takeWhile isDigit = natToDigits n := by
    rw [takeWhile_all_append hdig]
    have : rest.takeWhile isDigit = [] := by
      match rest with
      | [] => rfl
      | c :: r2 =>
        rw [List.takeWhile_cons, (hr c r2 rfl).1]
        simp
    rw [this, List.append_nil]
  have hdrop : (natToDigits n ++ rest).dropWhile isDigit = rest := by
    rw [dropWhile_all_append hdig]
    match rest with
    | [] => rfl
    | c :: r2 =>
      rw [List.dropWhile_cons, (hr c r2 rfl).1]
      simp
  unfold parseNumAbs
  simp only [htake, hdrop]
  rw [if_neg (natToDigits_ne_nil n)]
  rw [if_neg (by
    intro hcon
    rcases hcon with ⟨h48, hlen⟩
    have hn0 := natToDigits_head_zero n h48
    subst hn0
    rw [show natToDigits 0 = [48] by rw [natToDigits]; norm_num] at hlen
    simp at hlen)]
  have hval : digitsVal (natToDigits n) = n := digitsVal_natToDigits n
  split
  · exact absurd (hr 46 _ rfl) (by simp)
  · exact absurd (hr 101 _ rfl) (by simp)
  · exact absurd (hr 69 _ rfl) (by simp)
  · rw [hval]

theorem natToDigits_cons (n : Nat) : ∃ d t, natToDigits n = d :: t ∧ 48 ≤ d ∧ d ≤ 57 := by
  match h : natToDigits n with
  | [] => exact absurd h (natToDigits_ne_nil n)
  | d :: t =>
    refine ⟨d, t, rfl, ?_⟩
    have := natToDigits_all_digits n d (by rw [h]; exact List.mem_cons_self _ _)
    omega

theorem parseNumber_intToDec (n : Int) (rest : List Nat) (hr : NumSafe rest) :
    parseNumber (intToDec n ++ rest) = some (n, rest) := by
  unfold intToDec
  by_cases hneg : n < 0
  · rw [if_pos hneg]
    show parseNumber (45 :: (natToDigits n.natAbs ++ rest)) = some (n, rest)
    show Option.map (fun p => (-(p.1 : Int), p.2)) (parseNumAbs (natToDigits n.natAbs ++ rest)) =
      some (n, rest)
    rw [parseNumAbs_digits n.natAbs rest hr]
    simp only [Option.map_some']
    have : -((n.natAbs : Nat) : Int) = n := by omega
    rw [this]
  · rw [if_neg hneg]
    obtain ⟨d, t, hd, h48, h57⟩ := natToDigits_cons n.natAbs
    rw [hd]
    show parseNumber (d :: (t ++ rest)) = some (n, rest)
    unfold parseNumber
    split
    · rename_i heq
      injection heq with h1 h2
      omega
    · have hre : d :: (t ++ rest) = natToDigits n.natAbs ++ rest := by rw [hd]; rfl
      rw [hre, parseNumAbs_digits n.natAbs rest hr]
      simp only [Option.map_some']
      have : ((n.natAbs : Nat) : Int) = n := by omega
      rw [this]

theorem isJsonWs_false {c : Nat} (h : c ≠ 32 ∧ c ≠ 9 ∧ c ≠ 10 ∧ c ≠ 13) :
    isJsonWs c = false := by
  unfold isJsonWs
  simp only [Bool.or_eq_false_iff, decide_eq_false_iff_not]
  omega

theorem intToDec_cons (n : Int) :
    ∃ d t, intToDec n = d :: t ∧ (d = 45 ∨ (48 ≤ d ∧ d ≤ 57)) := by
  unfold intToDec
  by_cases hneg : n < 0
  · rw [if_pos hneg]
    exact ⟨45, _, rfl, Or.inl rfl⟩
  · rw [if_neg hneg]
    obtain ⟨d, t, hd, h1, h2⟩ := natToDigits_cons n.natAbs
    exact ⟨d, t, hd, Or.inr ⟨h1, h2⟩⟩

/-- Every serialization starts with a non-whitespace character that is not
a separator or closing bracket. -/
theorem render_cons (v : Json) :
    ∃ c t, render v = c :: t ∧
      (c = 110 ∨ c = 116 ∨ c = 102 ∨ c = 34 ∨ c = 91 ∨ c = 123 ∨ c = 45 ∨
        (48 ≤ c ∧ c ≤ 57)) := by
  match v with
  | .null => exact ⟨110, _, rfl, by omega⟩
  | .bool true => exact ⟨116, _, rfl, by omega⟩
  | .bool false => exact ⟨102, _, rfl, by omega⟩
  | .num n =>
    obtain ⟨d, t, hd, hcase⟩ := intToDec_cons n
    exact ⟨d, t, hd, by omega⟩
  | .str s => exact ⟨34, _, rfl, by omega⟩
  | .arr l => exact ⟨91, _, rfl, by omega⟩
  | .obj fs => exact ⟨123, _, rfl, by omega⟩

theorem skipWs_render (v : Json) (x : List Nat) :
    skipWs (render v ++ x) = render v ++ x := by
  obtain ⟨c, t, hc, hcase⟩ := render_cons v
  rw [hc, List.cons_append, skipWs_not_ws (isJsonWs_false (by omega))]

theorem renderElems_cons_eq (v : Json) (vs : List Json) :
    ∃ y, renderElems (v :: vs) = render v ++ y := by
  match vs with
  | [] => exact ⟨[], by rw [renderElems, List.append_nil]⟩
  | v2 :: vs2 => exact ⟨44 :: renderElems (v2 :: vs2), by rw [renderElems]⟩

theorem sizeJ_pos (v : Json) : 1 ≤ sizeJ v := by
  match v with
  | .null | .bool _ | .num _ | .str _ => exact le_refl 1
  | .arr l => show 1 ≤ 1 + sizeElems l; omega
  | .obj l => show 1 ≤ 1 + sizeMembers l; omega

/-- The recursive-descent parser inverts the serializer: simultaneously for
single values, array element lists and object member lists, by strong
induction on the size bound `N`. -/
theorem parse_render_all (N : Nat) :
    (∀ (v : Json) (f : Nat), sizeJ v ≤ N → sizeJ v ≤ f + 1 → ∀ rest, SepOk rest →
      parseValue (f + 1) (render v ++ rest) = some (v, rest)) ∧
    (∀ (v : Json) (vs : List Json) (f : Nat), sizeElems (v :: vs) ≤ N →
      sizeElems (v :: vs) ≤ f → ∀ rest, SepOk rest →
      parseElems f (renderElems (v :: vs) ++ 93 :: rest) = some (v :: vs, rest)) ∧
    (∀ (k : List Nat) (v : Json) (fs : List (List Nat × Json)) (f : Nat),
      sizeMembers ((k, v) :: fs) ≤ N → sizeMembers ((k, v) :: fs) ≤ f → ∀ rest, SepOk rest →
      parseMembers f (renderFields ((k, v) :: fs) ++ 125 :: rest) =
        some ((k, v) :: fs, rest)) := by
  induction N using Nat.strong_induction_on with
  | _ N ih =>
  refine ⟨?_, ?_, ?_⟩
  · -- single values
    intro v f hN hf rest hsep
    match v with
    | .null => rfl
    | .bool true => rfl
    | .bool false => rfl
    | .num n =>
      obtain ⟨d, t, hd, hcase⟩ := intToDec_cons n
      have hren : render (.num n) ++ rest = d :: (t ++ rest) := by
        show intToDec n ++ rest = _
        rw [hd]
        rfl
      rw [hren]
      show (match skipWs (d :: (t ++ rest)) with
        | [] => none
        | c :: rest =>
          if c = 110 then
            match rest with
            | 117 :: 108 :: 108 :: r => some (Json.null, r)
            | _ => none
          else if c = 116 then
            match rest with
            | 114 :: 117 :: 101 :: r => some (Json.bool true, r)
            | _ => none
          else if c = 102 then
            match rest with
            | 97 :: 108 :: 115 :: 101 :: r => some (Json.bool false, r)
            | _ => none
          else if c = 34 then
            (parseStringBody rest).map (fun p => (Json.str p.1, p.2))
          else if c = 91 then
            match skipWs rest with
            | 93 :: r => some (Json.arr [], r)
            | r1 => (parseElems f r1).map (fun p => (Json.arr p.1, p.2))
          else if c = 123 then
            match skipWs rest with
            | 125 :: r => some (Json.obj [], r)
            | r1 => (parseMembers f r1).map (fun p => (Json.obj p.1, p.2))
          else if c = 45 || isDigit c then
            (parseNumber (c :: rest)).map (fun p => (Json.num p.1, p.2))
          else none) = some (Json.num n, rest)
      rw [skipWs_not_ws (isJsonWs_false (by omega))]
      simp only [if_neg (show ¬ d = 110 by omega), if_neg (show ¬ d = 116 by omega),
        if_neg (show ¬ d = 102 by omega), if_neg (show ¬ d = 34 by omega),
        if_neg (show ¬ d = 91 by omega), if_neg (show ¬ d = 123 by omega)]
      rw [if_pos (show (d = 45 || isDigit d) = true by
        simp only [isDigit, Bool.or_eq_true, Bool.and_eq_true, decide_eq_true_eq]
        omega)]
      rw [show d :: (t ++ rest) = intToDec n ++ rest by rw [hd]; rfl,
        parseNumber_intToDec n rest hsep.numSafe]
      rfl
    | .str s =>
      have hren : render (.str s) ++ rest = 34 :: (quoteJSONString s ++ 34 :: rest) := by
        show (34 :: (quoteJSONString s ++ [34])) ++ rest = _
        simp [List.append_assoc]
      rw [hren]
      show Option.map (fun p => (Json.str p.1, p.2))
        (parseStringBody (quoteJSONString s ++ 34 :: rest)) = some (Json.str s, rest)
      rw [parseStringBody_quote s rest]
      rfl
    | .arr [] => rfl
    | .arr (v1 :: vs) =>
      have hsz : sizeJ (Json.arr (v1 :: vs)) = 1 + sizeElems (v1 :: vs) := rfl
      have hren : render (.arr (v1 :: vs)) ++ rest =
          91 :: (renderElems (v1 :: vs) ++ 93 :: rest) := by
        show (91 :: (renderElems (v1 :: vs) ++ [93])) ++ rest = _
        simp [List.append_assoc]
      rw [hren]
      show (match skipWs (renderElems (v1 :: vs) ++ 93 :: rest) with
        | 93 :: r => some (Json.arr [], r)
        | r1 => (parseElems f r1).map (fun p => (Json.arr p.1, p.2))) =
        some (Json.arr (v1 :: vs), rest)
      obtain ⟨y, hy⟩ := renderElems_cons_eq v1 vs
      obtain ⟨c, t, hc, hcase⟩ := render_cons v1
      have hshape : renderElems (v1 :: vs) ++ 93 :: rest = c :: (t ++ y ++ 93 :: rest) := by
        rw [hy, hc]
        simp [List.append_assoc]
      rw [hshape, skipWs_not_ws (isJsonWs_false (by omega)), ← hshape]
      split
      · rename_i r heq
        rw [hshape] at heq
        injection heq with h1 h2
        omega
      · rw [(ih (sizeElems (v1 :: vs)) (by omega)).2.1 v1 vs f (le_refl _) (by omega)
          rest hsep]
        rfl
    | .obj [] => rfl
    | .obj ((k1, v1) :: fs) =>
      have hsz : sizeJ (Json.obj ((k1, v1) :: fs)) = 1 + sizeMembers ((k1, v1) :: fs) := rfl
      have hren : render (.obj ((k1, v1) :: fs)) ++ rest =
          123 :: (renderFields ((k1, v1) :: fs) ++ 125 :: rest) := by
        show (123 :: (renderFields ((k1, v1) :: fs) ++ [125])) ++ rest = _
        simp [List.append_assoc]
      rw [hren]
      show (match skipWs (renderFields ((k1, v1) :: fs) ++ 125 :: rest) with
        | 125 :: r => some (Json.obj [], r)
        | r1 => (parseMembers f r1).map (fun p => (Json.obj p.1, p.2))) =
        some (Json.obj ((k1, v1) :: fs), rest)
      have hfshape : ∃ z, renderFields ((k1, v1) :: fs) ++ 125 :: rest = 34 :: z := by
        match fs with
        | [] =>
          refine ⟨quoteJSONString k1 ++ (34 :: 58 :: render v1) ++ 125 :: rest, ?_⟩
          rw [renderFields]
          simp [List.append_assoc]
        | f2 :: fs2 =>
          refine ⟨(quoteJSONString k1 ++ (34 :: 58 :: render v1)) ++
            44 :: renderFields (f2 :: fs2) ++ 125 :: rest, ?_⟩
          rw [renderFields]
          simp [List.append_assoc]
      obtain ⟨z, hz⟩ := hfshape
      rw [hz, skipWs_not_ws (isJsonWs_false (by omega)), ← hz]
      split
      · rename_i r heq
        rw [hz] at heq
        injection heq with h1 h2
        omega
      · rw [(ih (sizeMembers ((k1, v1) :: fs)) (by omega)).2.2 k1 v1 fs f (le_refl _)
          (by omega) rest hsep]
        rfl
  · -- array element lists
    intro v vs f hN hf rest hsep
    have hsz : sizeElems (v :: vs) = 1 + sizeJ v + sizeElems vs := rfl
    have hvpos : 1 ≤ sizeJ v := sizeJ_pos v
    obtain ⟨f, rfl⟩ : ∃ g, f = g + 1 := by
      match f with
      | 0 => rw [hsz] at hf; omega
      | g + 1 => exact ⟨g, rfl⟩
    show (parseValue f (renderElems (v :: vs) ++ 93 :: rest)).bind (fun p =>
        match skipWs p.2 with
        | 44 :: r2 => (parseElems f r2).map (fun q => (p.1 :: q.1, q.2))
        | 93 :: r2 => some ([p.1], r2)
        | _ => none) = some (v :: vs, rest)
    match vs with
    | [] =>
      have h1 : renderElems [v] ++ 93 :: rest = render v ++ 93 :: rest := by
        rw [renderElems]
      obtain ⟨f, rfl⟩ : ∃ g, f = g + 1 := by
        match f with
        | 0 => rw [hsz] at hf; omega
        | g + 1 => exact ⟨g, rfl⟩
      rw [h1, (ih (sizeJ v) (by omega)).1 v f (le_refl _) (by omega) (93 :: rest)
        (Or.inr ⟨93, rest, rfl, by omega⟩)]
      rfl
    | v2 :: vs2 =>
      have hsz2 : sizeElems (v2 :: vs2) = 1 + sizeJ v2 + sizeElems vs2 := rfl
      have h1 : renderElems (v :: v2 :: vs2) ++ 93 :: rest =
          render v ++ 44 :: (renderElems (v2 :: vs2) ++ 93 :: rest) := by
        rw [renderElems]
        simp [List.append_assoc]
      have hsz' : sizeElems (v :: v2 :: vs2) = 1 + sizeJ v + sizeElems (v2 :: vs2) := rfl
      obtain ⟨f, rfl⟩ : ∃ g, f = g + 1 := by
        match f with
        | 0 => rw [hsz'] at hf; omega
        | g + 1 => exact ⟨g, rfl⟩
      rw [h1, (ih (sizeJ v) (by omega)).1 v f (le_refl _) (by omega) _
        (Or.inr ⟨44, _, rfl, by omega⟩)]
      show (match skipWs (44 :: (renderElems (v2 :: vs2) ++ 93 :: rest)) with
        | 44 :: r2 => (parseElems (f + 1) r2).map (fun q => (v :: q.1, q.2))
        | 93 :: r2 => some ([v], r2)
        | _ => none) = some (v :: v2 :: vs2, rest)
      rw [skipWs_not_ws (by rfl)]
      show (parseElems (f + 1) (renderElems (v2 :: vs2) ++ 93 :: rest)).map
        (fun q => (v :: q.1, q.2)) = some (v :: v2 :: vs2, rest)
      rw [(ih (sizeElems (v2 :: vs2)) (by omega)).2.1 v2 vs2 (f + 1) (le_refl _)
        (by omega) rest hsep]
      rfl
  · -- object member lists
    intro k v fs f hN hf rest hsep
    have hsz : sizeMembers ((k, v) :: fs) = 1 + sizeJ v + sizeMembers fs := rfl
    have hvpos : 1 ≤ sizeJ v := sizeJ_pos v
    match fs with
    | [] =>
      have h0 : sizeMembers ([] : List (List Nat × Json)) = 0 := rfl
      have h1 : renderFields [(k, v)] ++ 125 :: rest =
          34 :: (quoteJSONString k ++ 34 :: (58 :: (render v ++ 125 :: rest))) := by
        rw [renderFields]
        simp [List.append_assoc]
      obtain ⟨f, rfl⟩ : ∃ g, f = g + 1 := by
        match f with
        | 0 => rw [hsz] at hf; omega
        | g + 1 => exact ⟨g, rfl⟩
      rw [h1]
      show (parseStringBody (quoteJSONString k ++ 34 :: (58 :: (render v ++
          125 :: rest)))).bind (fun pk =>
          match skipWs pk.2 with
          | 58 :: r2 =>
            (parseValue f r2).bind (fun pv =>
              match skipWs pv.2 with
              | 44 :: r4 => (parseMembers f r4).map (fun q => ((pk.1, pv.1) :: q.1, q.2))
              | 125 :: r4 => some ([(pk.1, pv.1)], r4)
              | _ => none)
          | _ => none) = some ([(k, v)], rest)
      rw [parseStringBody_quote k]
      show (match skipWs (58 :: (render v ++ 125 :: rest)) with
        | 58 :: r2 =>
          (parseValue f r2).bind (fun pv =>
            match skipWs pv.2 with
            | 44 :: r4 => (parseMembers f r4).map (fun q => ((k, pv.1) :: q.1, q.2))
            | 125 :: r4 => some ([(k, pv.1)], r4)
            | _ => none)
        | _ => none) = some ([(k, v)], rest)
      rw [skipWs_not_ws (by rfl)]
      show (parseValue f (render v ++ 125 :: rest)).bind (fun pv =>
          match skipWs pv.2 with
          | 44 :: r4 => (parseMembers f r4).map (fun q => ((k, pv.1) :: q.1, q.2))
          | 125 :: r4 => some ([(k, pv.1)], r4)
          | _ => none) = some ([(k, v)], rest)
      obtain ⟨f, rfl⟩ : ∃ g, f = g + 1 := by
        match f with
        | 0 => omega
        | g + 1 => exact ⟨g, rfl⟩
      rw [(ih (sizeJ v) (by omega)).1 v f (le_refl _) (by omega) (125 :: rest)
        (Or.inr ⟨125, rest, rfl, by omega⟩)]
      rfl
    | (k2, v2) :: fs2 =>
      have hsz2 : sizeMembers ((k2, v2) :: fs2) = 1 + sizeJ v2 + sizeMembers fs2 := rfl
      have h1 : renderFields ((k, v) :: (k2, v2) :: fs2) ++ 125 :: rest =
          34 :: (quoteJSONString k ++ 34 :: (58 :: (render v ++
            44 :: (renderFields ((k2, v2) :: fs2) ++ 125 :: rest)))) := by
        rw [renderFields]
        simp [List.append_assoc]
      have hsz' : sizeMembers ((k, v) :: (k2, v2) :: fs2) =
          1 + sizeJ v + sizeMembers ((k2, v2) :: fs2) := rfl
      obtain ⟨f, rfl⟩ : ∃ g, f = g + 1 := by
        match f with
        | 0 => rw [hsz'] at hf; omega
        | g + 1 => exact ⟨g, rfl⟩
      rw [h1]
      show (parseStringBody (quoteJSONString k ++ 34 :: (58 :: (render v ++
          44 :: (renderFields ((k2, v2) :: fs2) ++ 125 :: rest))))).bind (fun pk =>
          match skipWs pk.2 with
          | 58 :: r2 =>
            (parseValue f r2).bind (fun pv =>
              match skipWs pv.2 with
              | 44 :: r4 => (parseMembers f r4).map (fun q => ((pk.1, pv.1) :: q.1, q.2))
              | 125 :: r4 => some ([(pk.1, pv.1)], r4)
              | _ => none)
          | _ => none) = some ((k, v) :: (k2, v2) :: fs2, rest)
      rw [parseStringBody_quote k]
      show (match skipWs (58 :: (render v ++ 44 :: (renderFields ((k2, v2) :: fs2) ++
          125 :: rest))) with
        | 58 :: r2 =>
          (parseValue f r2).bind (fun pv =>
            match skipWs pv.2 with
            | 44 :: r4 => (parseMembers f r4).map (fun q => ((k, pv.1) :: q.1, q.2))
            | 125 :: r4 => some ([(k, pv.1)], r4)
            | _ => none)
        | _ => none) = some ((k, v) :: (k2, v2) :: fs2, rest)
      rw [skipWs_not_ws (by rfl)]
      show (parseValue f (render v ++ 44 :: (renderFields ((k2, v2) :: fs2) ++
          125 :: rest))).bind (fun pv =>
          match skipWs pv.2 with
          | 44 :: r4 => (parseMembers f r4).map (fun q => ((k, pv.1) :: q.1, q.2))
          | 125 :: r4 => some ([(k, pv.1)], r4)
          | _ => none) = some ((k, v) :: (k2, v2) :: fs2, rest)
      obtain ⟨f, rfl⟩ : ∃ g, f = g + 1 := by
        match f with
        | 0 => omega
        | g + 1 => exact ⟨g, rfl⟩
      rw [(ih (sizeJ v) (by omega)).1 v f (le_refl _) (by omega) _
        (Or.inr ⟨44, _, rfl, by omega⟩)]
      show (match skipWs (44 :: (renderFields ((k2, v2) :: fs2) ++ 125 :: rest)) with
        | 44 :: r4 => (parseMembers (f + 1) r4).map (fun q => ((k, v) :: q.1, q.2))
        | 125 :: r4 => some ([(k, v)], r4)
        | _ => none) = some ((k, v) :: (k2, v2) :: fs2, rest)
      rw [skipWs_not_ws (by rfl)]
      show (parseMembers (f + 1) (renderFields ((k2, v2) :: fs2) ++ 125 :: rest)).map
        (fun q => ((k, v) :: q.1, q.2)) = some ((k, v) :: (k2, v2) :: fs2, rest)
      rw [(ih (sizeMembers ((k2, v2) :: fs2)) (by omega)).2.2 k2 v2 fs2 (f + 1)
        (le_refl _) (by omega) rest hsep]
      rfl

/-- The recursive-descent parser inverts the serializer on a single value. -/
theorem parseValue_render (v : Json) (f : Nat) (hf : sizeJ v ≤ f + 1)
    (rest : List Nat) (hsep : SepOk rest) :
    parseValue (f + 1) (render v ++ rest) = some (v, rest) :=
  (parse_render_all (sizeJ v)).1 v f (le_refl _) hf rest hsep

/-- Each value's fuel measure is covered by the length of its
serialization. -/
theorem size_le_render (N : Nat) :
    (∀ v : Json, sizeJ v ≤ N → sizeJ v ≤ (render v).length) ∧
    (∀ (v : Json) (vs : List Json), sizeElems (v :: vs) ≤ N →
      sizeElems (v :: vs) ≤ (renderElems (v :: vs)).length + 1) ∧
    (∀ (k : List Nat) (v : Json) (fs : List (List Nat × Json)),
      sizeMembers ((k, v) :: fs) ≤ N →
      sizeMembers ((k, v) :: fs) ≤ (renderFields ((k, v) :: fs)).length + 1) := by
  induction N using Nat.strong_induction_on with
  | _ N ih =>
  refine ⟨?_, ?_, ?_⟩
  · intro v hN
    match v with
    | .null => simp [render, sizeJ]
    | .bool true => simp [render, sizeJ]
    | .bool false => simp [render, sizeJ]
    | .num n =>
      obtain ⟨d, t, hd, hcase⟩ := intToDec_cons n
      show sizeJ (.num n) ≤ (intToDec n).length
      rw [hd]
      show 1 ≤ (d :: t).length
      simp
    | .str s =>
      show 1 ≤ (34 :: (quoteJSONString s ++ [34])).length
      simp
    | .arr [] =>
      show 1 + sizeElems [] ≤ (91 :: (renderElems [] ++ [93])).length
      simp [sizeElems, renderElems]
    | .arr (v1 :: vs) =>
      have hsz : sizeJ (Json.arr (v1 :: vs)) = 1 + sizeElems (v1 :: vs) := rfl
      have he := (ih (sizeElems (v1 :: vs)) (by omega)).2.1 v1 vs (le_refl _)
      show 1 + sizeElems (v1 :: vs) ≤ (91 :: (renderElems (v1 :: vs) ++ [93])).length
      simp only [List.length_cons, List.length_append, List.length_singleton]
      omega
    | .obj [] =>
      show 1 + sizeMembers [] ≤ (123 :: (renderFields [] ++ [125])).length
      simp [sizeMembers, renderFields]
    | .obj ((k1, v1) :: fs) =>
      have hsz : sizeJ (Json.obj ((k1, v1) :: fs)) = 1 + sizeMembers ((k1, v1) :: fs) := rfl
      have he := (ih (sizeMembers ((k1, v1) :: fs)) (by omega)).2.2 k1 v1 fs (le_refl _)
      show 1 + sizeMembers ((k1, v1) :: fs) ≤
        (123 :: (renderFields ((k1, v1) :: fs) ++ [125])).length
      simp only [List.length_cons, List.length_append, List.length_singleton]
      omega
  · intro v vs hN
    have hsz : sizeElems (v :: vs) = 1 + sizeJ v + sizeElems vs := rfl
    have hvpos : 1 ≤ sizeJ v := sizeJ_pos v
    have hv := (ih (sizeJ v) (by omega)).1 v (le_refl _)
    match vs with
    | [] =>
      have h0 : sizeElems ([] : List Json) = 0 := rfl
      show sizeElems [v] ≤ (renderElems [v]).length + 1
      rw [show renderElems [v] = render v from rfl]
      omega
    | v2 :: vs2 =>
      have hsz2 := (ih (sizeElems (v2 :: vs2)) (by
        have : sizeElems (v2 :: vs2) = 1 + sizeJ v2 + sizeElems vs2 := rfl
        have : sizeElems (v :: v2 :: vs2) = 1 + sizeJ v + sizeElems (v2 :: vs2) := rfl
        omega)).2.1 v2 vs2 (le_refl _)
      have hshape : renderElems (v :: v2 :: vs2) =
          render v ++ 44 :: renderElems (v2 :: vs2) := by
        rw [renderElems]
      have : sizeElems (v :: v2 :: vs2) = 1 + sizeJ v + sizeElems (v2 :: vs2) := rfl
      rw [this, hshape]
      simp only [List.length_append, List.length_cons]
      omega
  · intro k v fs hN
    have hsz : sizeMembers ((k, v) :: fs) = 1 + sizeJ v + sizeMembers fs := rfl
    have hvpos : 1 ≤ sizeJ v := sizeJ_pos v
    have hv := (ih (sizeJ v) (by omega)).1 v (le_refl _)
    match fs with
    | [] =>
      have h0 : sizeMembers ([] : List (List Nat × Json)) = 0 := rfl
      show sizeMembers [(k, v)] ≤ (renderFields [(k, v)]).length + 1
      rw [show renderFields [(k, v)] =
        34 :: (quoteJSONString k ++ (34 :: 58 :: render v)) from rfl]
      simp only [List.length_cons, List.length_append]
      omega
    | (k2, v2) :: fs2 =>
      have hsz2 := (ih (sizeMembers ((k2, v2) :: fs2)) (by
        have : sizeMembers ((k2, v2) :: fs2) = 1 + sizeJ v2 + sizeMembers fs2 := rfl
        have : sizeMembers ((k, v) :: (k2, v2) :: fs2) =
          1 + sizeJ v + sizeMembers ((k2, v2) :: fs2) := rfl
        omega)).2.2 k2 v2 fs2 (le_refl _)
      have hshape : renderFields ((k, v) :: (k2, v2) :: fs2) =
          (34 :: (quoteJSONString k ++ (34 :: 58 :: render v))) ++
            44 :: renderFields ((k2, v2) :: fs2) := by
        rw [renderFields]
      have : sizeMembers ((k, v) :: (k2, v2) :: fs2) =
          1 + sizeJ v + sizeMembers ((k2, v2) :: fs2) := rfl
      rw [this, hshape]
      simp only [List.length_append, List.length_cons]
      omega

/-- `JSON.parse` inverts `JSON.stringify` on the modelled values. -/
theorem jsonParse_render (v : Json) : jsonParse (render v) = some v := by
  unfold jsonParse
  have hb : sizeJ v ≤ (render v).length + 1 := by
    have := (size_le_render (sizeJ v)).1 v (le_refl _)
    omega
  have hmain := parseValue_render v ((render v).length) hb [] (Or.inl rfl)
  rw [List.append_nil] at hmain
  rw [hmain]
  rfl

theorem e_ascii {c : Nat} (h : c < 128) (tl : List Nat) :
    utf8Encode (c :: tl) = c :: utf8Encode tl := by
  rw [utf8Encode.eq_def]
  simp only [if_pos h]

theorem e_two {c : Nat} (h1 : 128 ≤ c) (h2 : c < 2048) (tl : List Nat) :
    utf8Encode (c :: tl) = (192 + c / 64) :: (128 + c % 64) :: utf8Encode tl := by
  rw [utf8Encode.eq_def]
  simp only [if_neg (by omega : ¬ c < 128), if_pos h2]

theorem e_pair {c c2 : Nat} (hhi : 55296 ≤ c ∧ c ≤ 56319) (hlo : 56320 ≤ c2 ∧ c2 ≤ 57343)
    (tl : List Nat) :
    utf8Encode (c :: c2 :: tl) =
      (240 + (65536 + (c - 55296) * 1024 + (c2 - 56320)) / 262144) ::
        (128 + (65536 + (c - 55296) * 1024 + (c2 - 56320)) / 4096 % 64) ::
        (128 + (65536 + (c - 55296) * 1024 + (c2 - 56320)) / 64 % 64) ::
        (128 + (65536 + (c - 55296) * 1024 + (c2 - 56320)) % 64) :: utf8Encode tl := by
  rw [utf8Encode.eq_def]
  simp only [if_neg (by omega : ¬ c < 128), if_neg (by omega : ¬ c < 2048), if_pos hhi,
    if_pos hlo]

theorem e_three {c : Nat} (h1 : 2048 ≤ c) (h2 : ¬ (55296 ≤ c ∧ c ≤ 57343)) (tl : List Nat) :
    utf8Encode (c :: tl) =
      (224 + c / 4096) :: (128 + c / 64 % 64) :: (128 + c % 64) :: utf8Encode tl := by
  rw [utf8Encode.eq_def]
  simp only [if_neg (by omega : ¬ c < 128), if_neg (by omega : ¬ c < 2048),
    if_neg (by omega : ¬ (55296 ≤ c ∧ c ≤ 56319)),
    if_neg (by omega : ¬ (56320 ≤ c ∧ c ≤ 57343))]

theorem d_ascii {b : Nat} (h : b < 128) (tl : List Nat) :
    utf8Decode (b :: tl) = b :: utf8Decode tl := by
  rw [utf8Decode.eq_def]
  simp only [if_pos h]

theorem d_two {b b2 : Nat} (hb : 194 ≤ b ∧ b ≤ 223) (hb2 : 128 ≤ b2 ∧ b2 ≤ 191)
    (tl : List Nat) :
    utf8Decode (b :: b2 :: tl) = ((b - 192) * 64 + (b2 - 128)) :: utf8Decode tl := by
  rw [utf8Decode.eq_def]
  simp only [if_neg (by omega : ¬ b < 128), if_pos hb, if_pos hb2]

theorem d_three {b b2 b3 : Nat} (hb : 224 ≤ b ∧ b ≤ 239)
    (hb2 : if b = 224 then 160 ≤ b2 ∧ b2 ≤ 191
      else if b = 237 then 128 ≤ b2 ∧ b2 ≤ 159
      else 128 ≤ b2 ∧ b2 ≤ 191)
    (hb3 : 128 ≤ b3 ∧ b3 ≤ 191) (tl : List Nat) :
    utf8Decode (b :: b2 :: b3 :: tl) =
      ((b - 224) * 4096 + (b2 - 128) * 64 + (b3 - 128)) :: utf8Decode tl := by
  rw [utf8Decode.eq_def]
  simp only [if_neg (by omega : ¬ b < 128), if_neg (by omega : ¬ (194 ≤ b ∧ b ≤ 223)),
    if_pos hb, if_pos hb2, if_pos hb3]

theorem d_four {b b2 b3 b4 : Nat} (hb : 240 ≤ b ∧ b ≤ 244)
    (hb2 : if b = 240 then 144 ≤ b2 ∧ b2 ≤ 191
      else if b = 244 then 128 ≤ b2 ∧ b2 ≤ 143
      else 128 ≤ b2 ∧ b2 ≤ 191)
    (hb3 : 128 ≤ b3 ∧ b3 ≤ 191) (hb4 : 128 ≤ b4 ∧ b4 ≤ 191) (tl : List Nat) :
    utf8Decode (b :: b2 :: b3 :: b4 :: tl) =
      (55296 + ((b - 240) * 262144 + (b2 - 128) * 4096 + (b3 - 128) * 64 +
          (b4 - 128) - 65536) / 1024) ::
        (56320 + ((b - 240) * 262144 + (b2 - 128) * 4096 + (b3 - 128) * 64 +
          (b4 - 128) - 65536) % 1024) :: utf8Decode tl := by
  rw [utf8Decode.eq_def]
  simp only [if_neg (by omega : ¬ b < 128), if_neg (by omega : ¬ (194 ≤ b ∧ b ≤ 223)),
    if_neg (by omega : ¬ (224 ≤ b ∧ b ≤ 239)), if_pos hb, if_pos hb2, if_pos hb3, if_pos hb4]

theorem wf_small {c : Nat} (h : c < 55296) (tl : List Nat) :
    wfUtf16 (c :: tl) = wfUtf16 tl := by
  rw [wfUtf16.eq_def]
  simp only [if_pos h]

theorem wf_pair {c c2 : Nat} (hhi : 55296 ≤ c ∧ c ≤ 56319) (hlo : 56320 ≤ c2 ∧ c2 ≤ 57343)
    (tl : List Nat) :
    wfUtf16 (c :: c2 :: tl) = wfUtf16 tl := by
  rw [wfUtf16.eq_def]
  simp only [if_neg (by omega : ¬ c < 55296), if_pos hhi.2, decide_eq_true_eq]
  simp [hlo]

theorem wf_big {c : Nat} (h1 : 57343 < c) (h2 : c < 65536) (tl : List Nat) :
    wfUtf16 (c :: tl) = wfUtf16 tl := by
  rw [wfUtf16.eq_def]
  simp only [if_neg (by omega : ¬ c < 55296), if_neg (by omega : ¬ c ≤ 56319),
    if_neg (by omega : ¬ c ≤ 57343), decide_eq_true_eq]
  simp [h2]

/-- Decoding inverts encoding on well-formed UTF-16 input. -/
theorem utf8_roundtrip (s : List Nat) (h : wfUtf16 s = true) :
    utf8Decode (utf8Encode s) = s := by
  match s with
  | [] =>
    rw [utf8Encode.eq_def]
    rw [utf8Decode.eq_def]
  | c :: tl =>
    by_cases hc1 : c < 128
    · have htl : wfUtf16 tl = true := by rwa [wf_small (by omega)] at h
      rw [e_ascii hc1, d_ascii hc1, utf8_roundtrip tl htl]
    by_cases hc2 : c < 2048
    · have htl : wfUtf16 tl = true := by rwa [wf_small (by omega)] at h
      rw [e_two (by omega) hc2, d_two (by omega) (by omega)]
      rw [utf8_roundtrip tl htl,
        show (192 + c / 64 - 192) * 64 + (128 + c % 64 - 128) = c by omega]
    by_cases hhi : 55296 ≤ c ∧ c ≤ 56319
    · match tl with
      | [] =>
        exfalso
        rw [wfUtf16.eq_def] at h
        simp only [if_neg (by omega : ¬ c < 55296), if_pos hhi.2] at h
        exact Bool.false_ne_true h
      | c2 :: tl2 =>
        have hlo : 56320 ≤ c2 ∧ c2 ≤ 57343 := by
          rw [wfUtf16.eq_def] at h
          simp only [if_neg (by omega : ¬ c < 55296), if_pos hhi.2, Bool.and_eq_true,
            decide_eq_true_eq] at h
          exact h.1
        have htl : wfUtf16 tl2 = true := by rwa [wf_pair hhi hlo] at h
        set cp := 65536 + (c - 55296) * 1024 + (c2 - 56320) with hcp
        have hcpb : 65536 ≤ cp ∧ cp ≤ 1114111 := by omega
        rw [e_pair hhi hlo]
        rw [d_four (by omega)
          (by
            split
            · omega
            · split
              · omega
              · constructor <;> omega)
          (by constructor <;> omega) (by constructor <;> omega)]
        rw [utf8_roundtrip tl2 htl,
          show (240 + cp / 262144 - 240) * 262144 + (128 + cp / 4096 % 64 - 128) * 4096 +
            (128 + cp / 64 % 64 - 128) * 64 + (128 + cp % 64 - 128) = cp by omega,
          show 55296 + (cp - 65536) / 1024 = c by omega,
          show 56320 + (cp - 65536) % 1024 = c2 by omega]
    by_cases hlo : 56320 ≤ c ∧ c ≤ 57343
    · exfalso
      rw [wfUtf16.eq_def] at h
      simp only [if_neg (by omega : ¬ c < 55296), if_neg (by omega : ¬ c ≤ 56319),
        if_pos hlo.2] at h
      exact Bool.false_ne_true h
    · have hcbig : c < 65536 ∧ wfUtf16 tl = true := by
        by_cases hsm : c < 55296
        · refine ⟨by omega, ?_⟩
          rwa [wf_small hsm] at h
        · rw [wfUtf16.eq_def] at h
          simp only [if_neg hsm, if_neg (by omega : ¬ c ≤ 56319),
            if_neg (by omega : ¬ c ≤ 57343), Bool.and_eq_true, decide_eq_true_eq] at h
          exact h
      rw [e_three (by omega) (by omega), d_three (by omega)
        (by
          split
          · rename_i h224
            constructor <;> omega
          · split
            · rename_i h224 h237
              have hc13 : c / 4096 = 13 := by omega
              have : c < 55296 := by omega
              constructor <;> omega
            · constructor <;> omega)
        (by constructor <;> omega)]
      rw [utf8_roundtrip tl hcbig.2,
        show (224 + c / 4096 - 224) * 4096 + (128 + c / 64 % 64 - 128) * 64 +
          (128 + c % 64 - 128) = c by omega]
termination_by s.length
decreasing_by all_goals simp_all [List.length_cons] <;> omega

theorem wf_nil : wfUtf16 [] = true := by
  rw [wfUtf16.eq_def]

theorem wf_append_small {a : List Nat} (ha : ∀ c ∈ a, c < 55296) {tail : List Nat}
    (ht : wfUtf16 tail = true) : wfUtf16 (a ++ tail) = true := by
  induction a with
  | nil => simpa using ht
  | cons c tl ih =>
    rw [List.cons_append, wf_small (ha c (List.mem_cons_self _ _))]
    exact ih (fun x hx => ha x (List.mem_cons_of_mem _ hx))

theorem hexDigit_small (d : Nat) : hexDigit (d % 16) < 55296 := by
  unfold hexDigit
  split <;> omega

theorem hex4_small (c : Nat) : ∀ x ∈ hex4 c, x < 55296 := by
  intro x hx
  unfold hex4 at hx
  simp only [List.mem_cons, List.not_mem_nil, or_false] at hx
  have h1 := hexDigit_small (c / 4096)
  have h2 := hexDigit_small (c / 256)
  have h3 := hexDigit_small (c / 16)
  have h4 := hexDigit_small c
  rcases hx with hx | hx | hx | hx <;> (subst hx; assumption)

/-- The escaped string body is well formed whenever its continuation is and
the original units are code units. -/
theorem wfQuote (s : List Nat) (hs : ∀ c ∈ s, c < 65536) : ∀ (tail : List Nat),
    wfUtf16 tail = true → wfUtf16 (quoteJSONString s ++ tail) = true := by
  match s with
  | [] =>
    intro tail ht
    rw [q_nil, List.nil_append]
    exact ht
  | c :: tl =>
    intro tail ht
    have hc := hs c (List.mem_cons_self _ _)
    have htl : ∀ x ∈ tl, x < 65536 := fun x hx => hs x (List.mem_cons_of_mem _ hx)
    have hexCase : ∀ (k : List Nat), wfUtf16 (k ++ tail) = true →
        wfUtf16 ((92 :: 117 :: (hex4 c ++ k)) ++ tail) = true := by
      intro k hk
      rw [List.cons_append, List.cons_append, wf_small (by omega), wf_small (by omega),
        List.append_assoc]
      exact wf_append_small (hex4_small c) hk
    by_cases h34 : c = 34
    · subst h34
      rw [q_quote, List.cons_append, List.cons_append, wf_small (by omega),
        wf_small (by omega)]
      exact wfQuote tl htl tail ht
    by_cases h92 : c = 92
    · subst h92
      rw [q_backslash, List.cons_append, List.cons_append, wf_small (by omega),
        wf_small (by omega)]
      exact wfQuote tl htl tail ht
    by_cases h8 : c = 8
    · subst h8
      rw [q_b, List.cons_append, List.cons_append, wf_small (by omega), wf_small (by omega)]
      exact wfQuote tl htl tail ht
    by_cases h9 : c = 9
    · subst h9
      rw [q_t, List.cons_append, List.cons_append, wf_small (by omega), wf_small (by omega)]
      exact wfQuote tl htl tail ht
    by_cases h10 : c = 10
    · subst h10
      rw [q_n, List.cons_append, List.cons_append, wf_small (by omega), wf_small (by omega)]
      exact wfQuote tl htl tail ht
    by_cases h12 : c = 12
    · subst h12
      rw [q_f, List.cons_append, List.cons_append, wf_small (by omega), wf_small (by omega)]
      exact wfQuote tl htl tail ht
    by_cases h13 : c = 13
    · subst h13
      rw [q_r, List.cons_append, List.cons_append, wf_small (by omega), wf_small (by omega)]
      exact wfQuote tl htl tail ht
    by_cases hctl : c < 32
    · rw [q_ctl hctl h8 h9 h10 h12 h13]
      exact hexCase (quoteJSONString tl) (wfQuote tl htl tail ht)
    by_cases hhi : 55296 ≤ c ∧ c ≤ 56319
    · match tl with
      | [] =>
        rw [q_hi_nil hhi,
          show (92 :: 117 :: hex4 c : List Nat) = 92 :: 117 :: (hex4 c ++ []) by simp]
        exact hexCase [] (by simpa using ht)
      | c2 :: tl2 =>
        by_cases hlo : 56320 ≤ c2 ∧ c2 ≤ 57343
        · rw [q_pair hhi hlo, List.cons_append, List.cons_append, wf_pair hhi hlo]
          exact wfQuote tl2 (fun x hx => htl x (List.mem_cons_of_mem _ hx)) tail ht
        · rw [q_hi_unpaired hhi hlo]
          exact hexCase (quoteJSONString (c2 :: tl2)) (wfQuote (c2 :: tl2) htl tail ht)
    by_cases hlo : 56320 ≤ c ∧ c ≤ 57343
    · rw [q_lo hlo]
      exact hexCase (quoteJSONString tl) (wfQuote tl htl tail ht)
    · rw [q_lit (by omega) h34 h92 (by omega), List.cons_append]
      by_cases hsm : c < 55296
      · rw [wf_small hsm]
        exact wfQuote tl htl tail ht
      · rw [wf_big (by omega) (by omega)]
        exact wfQuote tl htl tail ht
termination_by s.length
decreasing_by all_goals simp_all [List.length_cons] <;> omega

theorem intToDec_small (n : Int) : ∀ x ∈ intToDec n, x < 55296 := by
  intro x hx
  unfold intToDec at hx
  have hd := natToDigits_all_digits n.natAbs
  split at hx
  · rcases List.mem_cons.mp hx with hx | hx
    · omega
    · have := hd x hx
      omega
  · have := hd x hx
    omega

/-- The serializer only produces well-formed UTF-16 text on values whose
strings satisfy the JS-string invariant. -/
theorem wfRender (N : Nat) :
    (∀ v : Json, sizeJ v ≤ N → jsonWf v = true → ∀ tail, wfUtf16 tail = true →
      wfUtf16 (render v ++ tail) = true) ∧
    (∀ (v : Json) (vs : List Json), sizeElems (v :: vs) ≤ N →
      jsonWfElems (v :: vs) = true → ∀ tail, wfUtf16 tail = true →
      wfUtf16 (renderElems (v :: vs) ++ tail) = true) ∧
    (∀ (k : List Nat) (v : Json) (fs : List (List Nat × Json)),
      sizeMembers ((k, v) :: fs) ≤ N → jsonWfMembers ((k, v) :: fs) = true →
      ∀ tail, wfUtf16 tail = true →
      wfUtf16 (renderFields ((k, v) :: fs) ++ tail) = true) := by
  induction N using Nat.strong_induction_on with
  | _ N ih =>
  refine ⟨?_, ?_, ?_⟩
  · intro v hN hwf tail ht
    match v with
    | .null => exact wf_append_small (by intro x hx; simp [render] at hx; omega) ht
    | .bool true => exact wf_append_small (by intro x hx; simp [render] at hx; omega) ht
    | .bool false => exact wf_append_small (by intro x hx; simp [render] at hx; omega) ht
    | .num n => exact wf_append_small (intToDec_small n) ht
    | .str s =>
      have hs : ∀ c ∈ s, c < 65536 := by
        intro c hc
        have := hwf
        rw [show jsonWf (.str s) = s.all (fun c => decide (c < 65536)) from rfl] at this
        rw [List.all_eq_true] at this
        have := this c hc
        simpa using this
      show wfUtf16 ((34 :: (quoteJSONString s ++ [34])) ++ tail) = true
      rw [List.cons_append, wf_small (by omega), List.append_assoc]
      exact wfQuote s hs (34 :: tail) (by rw [wf_small (by omega)]; exact ht)
    | .arr [] => exact wf_append_small (by intro x hx; simp [render, renderElems] at hx; omega) ht
    | .arr (v1 :: vs) =>
      have hsz : sizeJ (Json.arr (v1 :: vs)) = 1 + sizeElems (v1 :: vs) := rfl
      show wfUtf16 ((91 :: (renderElems (v1 :: vs) ++ [93])) ++ tail) = true
      rw [List.cons_append, wf_small (by omega), List.append_assoc]
      refine (ih (sizeElems (v1 :: vs)) (by omega)).2.1 v1 vs (le_refl _) ?_ (93 :: tail) ?_
      · exact hwf
      · rw [wf_small (by omega)]
        exact ht
    | .obj [] => exact wf_append_small (by intro x hx; simp [render, renderFields] at hx; omega) ht
    | .obj ((k1, v1) :: fs) =>
      have hsz : sizeJ (Json.obj ((k1, v1) :: fs)) = 1 + sizeMembers ((k1, v1) :: fs) := rfl
      show wfUtf16 ((123 :: (renderFields ((k1, v1) :: fs) ++ [125])) ++ tail) = true
      rw [List.cons_append, wf_small (by omega), List.append_assoc]
      refine (ih (sizeMembers ((k1, v1) :: fs)) (by omega)).2.2 k1 v1 fs (le_refl _) ?_
        (125 :: tail) ?_
      · exact hwf
      · rw [wf_small (by omega)]
        exact ht
  · intro v vs hN hwf tail ht
    have hsz : sizeElems (v :: vs) = 1 + sizeJ v + sizeElems vs := rfl
    have hvpos : 1 ≤ sizeJ v := sizeJ_pos v
    have hwf2 : jsonWf v = true ∧ jsonWfElems vs = true := by
      rw [show jsonWfElems (v :: vs) = (jsonWf v && jsonWfElems vs) from rfl,
        Bool.and_eq_true] at hwf
      exact hwf
    match vs with
    | [] =>
      rw [show renderElems [v] = render v from rfl]
      exact (ih (sizeJ v) (by omega)).1 v (le_refl _) hwf2.1 tail ht
    | v2 :: vs2 =>
      have hsz2 : sizeElems (v2 :: vs2) = 1 + sizeJ v2 + sizeElems vs2 := rfl
      rw [show renderElems (v :: v2 :: vs2) = render v ++ 44 :: renderElems (v2 :: vs2)
        from rfl, List.append_assoc, List.cons_append]
      refine (ih (sizeJ v) (by omega)).1 v (le_refl _) hwf2.1 _ ?_
      rw [wf_small (by omega)]
      exact (ih (sizeElems (v2 :: vs2)) (by omega)).2.1 v2 vs2 (le_refl _) hwf2.2 tail ht
  · intro k v fs hN hwf tail ht
    have hsz : sizeMembers ((k, v) :: fs) = 1 + sizeJ v + sizeMembers fs := rfl
    have hvpos : 1 ≤ sizeJ v := sizeJ_pos v
    have hwf2 : (k.all (fun c => decide (c < 65536))) = true ∧ jsonWf v = true ∧
        jsonWfMembers fs = true := by
      rw [show jsonWfMembers ((k, v) :: fs) =
        (k.all (fun c => decide (c < 65536)) && jsonWf v && jsonWfMembers fs) from rfl,
        Bool.and_eq_true, Bool.and_eq_true] at hwf
      exact ⟨hwf.1.1, hwf.1.2, hwf.2⟩
    have hk : ∀ c ∈ k, c < 65536 := by
      intro c hc
      have := List.all_eq_true.mp hwf2.1 c hc
      simpa using this
    match fs with
    | [] =>
      rw [show renderFields [(k, v)] = 34 :: (quoteJSONString k ++ (34 :: 58 :: render v))
        from rfl, List.cons_append, wf_small (by omega), List.append_assoc]
      refine wfQuote k hk _ ?_
      rw [List.cons_append, List.cons_append, wf_small (by omega), wf_small (by omega)]
      exact (ih (sizeJ v) (by omega)).1 v (le_refl _) hwf2.2.1 tail ht
    | (k2, v2) :: fs2 =>
      have hsz2 : sizeMembers ((k2, v2) :: fs2) = 1 + sizeJ v2 + sizeMembers fs2 := rfl
      have hsh : renderFields ((k, v) :: (k2, v2) :: fs2) ++ tail =
          34 :: (quoteJSONString k ++ (34 :: (58 :: (render v ++
            (44 :: (renderFields ((k2, v2) :: fs2) ++ tail)))))) := by
        rw [show renderFields ((k, v) :: (k2, v2) :: fs2) =
          (34 :: (quoteJSONString k ++ (34 :: 58 :: render v))) ++
            44 :: renderFields ((k2, v2) :: fs2) from rfl]
        simp [List.append_assoc]
      rw [hsh, wf_small (by omega)]
      refine wfQuote k hk _ ?_
      rw [wf_small (by omega), wf_small (by omega)]
      refine (ih (sizeJ v) (by omega)).1 v (le_refl _) hwf2.2.1 _ ?_
      rw [wf_small (by omega)]
      exact (ih (sizeMembers ((k2, v2) :: fs2)) (by omega)).2.2 k2 v2 fs2 (le_refl _)
        hwf2.2.2 tail ht

/-- Serializations of JS values are well-formed UTF-16. -/
theorem wfRender_top (v : Json) (hwf : jsonWf v = true) : wfUtf16 (render v) = true := by
  have := (wfRender (sizeJ v)).1 v (le_refl _) hwf [] wf_nil
  simpa using this

/-! ### Facts connecting the layers -/
theorem utf8Encode_ascii (s : List Nat) (h : ∀ c ∈ s, c < 128) : utf8Encode s = s := by
  induction s with
  | nil => rw [utf8Encode.eq_def]
  | cons c tl ih =>
    rw [e_ascii (h c (List.mem_cons_self _ _)), ih (fun x hx => h x (List.mem_cons_of_mem _ hx))]

theorem wf_units_lt (s : List Nat) (h : wfUtf16 s = true) : ∀ c ∈ s, c < 65536 := by
  match s with
  | [] => intro c hc; simp at hc
  | c :: tl =>
    intro x hx
    by_cases hsm : c < 55296
    · have htl : wfUtf16 tl = true := by rwa [wf_small hsm] at h
      rcases List.mem_cons.mp hx with hx | hx
      · omega
      · exact wf_units_lt tl htl x hx
    by_cases hhi : c ≤ 56319
    · match tl with
      | [] =>
        exfalso
        rw [wfUtf16.eq_def] at h
        simp only [if_neg hsm, if_pos hhi] at h
        exact Bool.false_ne_true h
      | c2 :: tl2 =>
        rw [wfUtf16.eq_def] at h
        simp only [if_neg hsm, if_pos hhi, Bool.and_eq_true, decide_eq_true_eq] at h
        rcases List.mem_cons.mp hx with hx | hx
        · omega
        rcases List.mem_cons.mp hx with hx | hx
        · omega
        · exact wf_units_lt tl2 h.2 x hx
    by_cases hlo : c ≤ 57343
    · exfalso
      rw [wfUtf16.eq_def] at h
      simp only [if_neg hsm, if_neg (by omega : ¬ c ≤ 56319), if_pos hlo] at h
      exact Bool.false_ne_true h
    · rw [wfUtf16.eq_def] at h
      simp only [if_neg hsm, if_neg (by omega : ¬ c ≤ 56319),
        if_neg (by omega : ¬ c ≤ 57343), Bool.and_eq_true, decide_eq_true_eq] at h
      rcases List.mem_cons.mp hx with hx | hx
      · omega
      · exact wf_units_lt tl h.2 x hx
termination_by s.length
decreasing_by all_goals simp_all [List.length_cons] <;> omega

theorem loopMap_take (f : Nat → Nat → Nat) : ∀ (i n : Nat) (l : List Nat),
    (loopMap f i l).take n = loopMap f i (l.take n) := by
  intro i n l
  induction l generalizing i n with
  | nil => simp [loopMap]
  | cons b tl ih =>
    match n with
    | 0 => rfl
    | n + 1 =>
      simp only [loopMap]
      rw [List.take_succ_cons, ih (i + 1) n]

theorem xorEncrypt_length (sec l : List Nat) : (XOR.encrypt sec l).length = l.length := by
  unfold XOR.encrypt
  exact loopMap_length _ 0 l

theorem XOR.encrypt_take (sec l : List Nat) (n : Nat) :
    (XOR.encrypt sec l).take n = XOR.encrypt sec (l.take n) := by
  unfold XOR.encrypt
  exact loopMap_take _ 0 n l

theorem XOR.encrypt_encrypt (sec l : List Nat) (hsec : ∀ c ∈ sec, c < 65536)
    (hl : ∀ b ∈ l, b < 256) : XOR.encrypt sec (XOR.encrypt sec l) = l := by
  unfold XOR.encrypt
  apply loopMap_inverse
  · intro i b hb
    have hk : jsGet (utf8Encode sec) (i % (utf8Encode sec).length) < 256 :=
      jsGet_lt (utf8Encode_bytes_lt sec hsec) _
    exact xor_inverse_pointwise hk hb
  · exact hl

theorem aesEncrypt_length (sec l : List Nat) : (AES.encrypt sec l).length = l.length := by
  simp only [AES.encrypt]
  rw [loopMap_length, loopMap_length, loopMap_length]

theorem aesDecrypt_length (sec l : List Nat) : (AES.decrypt sec l).length = l.length := by
  simp only [AES.decrypt]
  rw [loopMap_length, loopMap_length, loopMap_length]

theorem aesDecrypt_take (sec l : List Nat) (n : Nat) :
    (AES.decrypt sec l).take n = AES.decrypt sec (l.take n) := by
  simp only [AES.decrypt]
  rw [loopMap_take, loopMap_take, loopMap_take]

theorem aesDecrypt_encrypt (sec l : List Nat) (hsec : ∀ c ∈ sec, c < 65536)
    (hl : ∀ b ∈ l, b < 256) : AES.decrypt sec (AES.encrypt sec l) = l := by
  simp only [AES.encrypt, AES.decrypt]
  have hkey : ∀ b ∈ utf8Encode sec, b < 256 := utf8Encode_bytes_lt sec hsec
  have henc : ∀ (r : Nat) (x : List Nat), ∀ b ∈ loopMap (AES.encByte (utf8Encode sec) r) 0 x,
      b < 256 := fun r x => loopMap_lt _ (fun i b => toUint8_lt _) 0 x
  rw [AES.round_inverse hkey 2 _ (henc 1 _), AES.round_inverse hkey 1 _ (henc 0 _),
    AES.round_inverse hkey 0 _ hl]

theorem Caesar.shiftOf_le (sec : List Nat) : Caesar.shiftOf sec ≤ 25 := by
  unfold Caesar.shiftOf
  omega

theorem caesarEncrypt_length (sec l : List Nat) : (Caesar.encrypt sec l).length = l.length := by
  unfold Caesar.encrypt
  exact loopMap_length _ 0 l

theorem caesarDecrypt_length (sec l : List Nat) : (Caesar.decrypt sec l).length = l.length := by
  unfold Caesar.decrypt
  exact loopMap_length _ 0 l

theorem caesarDecrypt_take (sec l : List Nat) (n : Nat) :
    (Caesar.decrypt sec l).take n = Caesar.decrypt sec (l.take n) := by
  unfold Caesar.decrypt
  exact loopMap_take _ 0 n l

theorem caesarDecrypt_encrypt (sec l : List Nat) (hl : ∀ b ∈ l, b < 256) :
    Caesar.decrypt sec (Caesar.encrypt sec l) = l := by
  unfold Caesar.encrypt Caesar.decrypt
  apply loopMap_inverse
  · intro i b hb
    have hs := Caesar.shiftOf_le sec
    set sh := Caesar.shiftOf sec with hshd
    have hstep : (((b + sh) % 256 : Nat) : Int) - (sh : Int) + 256 =
        (((b + sh) % 256 + 256 - sh : Nat) : Int) := by
      push_cast
      omega
    rw [hstep, Int.tmod_eq_emod (by positivity) (by norm_num)]
    unfold toUint8
    have : (((b + sh) % 256 + 256 - sh : Nat) : Int) % 256 =
        ((((b + sh) % 256 + 256 - sh) % 256 : Nat) : Int) := by
      push_cast
      omega
    rw [this]
    omega
  · exact hl

theorem xorDecrypt_take (sec l : List Nat) (n : Nat) :
    (XOR.decrypt sec l).take n = XOR.decrypt sec (l.take n) := XOR.encrypt_take sec l n

theorem xorDecrypt_length (sec l : List Nat) : (XOR.decrypt sec l).length = l.length :=
  xorEncrypt_length sec l

theorem entry_mem_cases {e : MethodEntry} (he : e ∈ AvailableMethods) :
    e = ⟨1, "xor", XOR.encrypt, XOR.decrypt⟩ ∨
      e = ⟨2, "aes-like", AES.encrypt, AES.decrypt⟩ ∨
      e = ⟨3, "caesar", Caesar.encrypt, Caesar.decrypt⟩ := by
  simpa [AvailableMethods] using he

theorem entry_encrypt_length {e : MethodEntry} (he : e ∈ AvailableMethods)
    (sec l : List Nat) : (e.encryptImpl sec l).length = l.length := by
  rcases entry_mem_cases he with h | h | h <;> subst h
  · exact xorEncrypt_length sec l
  · exact aesEncrypt_length sec l
  · exact caesarEncrypt_length sec l

theorem entry_decrypt_length {e : MethodEntry} (he : e ∈ AvailableMethods)
    (sec l : List Nat) : (e.decryptImpl sec l).length = l.length := by
  rcases entry_mem_cases he with h | h | h <;> subst h
  · exact xorDecrypt_length sec l
  · exact aesDecrypt_length sec l
  · exact caesarDecrypt_length sec l

theorem entry_decrypt_take {e : MethodEntry} (he : e ∈ AvailableMethods)
    (sec l : List Nat) (n : Nat) :
    (e.decryptImpl sec l).take n = e.decryptImpl sec (l.take n) := by
  rcases entry_mem_cases he with h | h | h <;> subst h
  · exact xorDecrypt_take sec l n
  · exact aesDecrypt_take sec l n
  · exact caesarDecrypt_take sec l n

theorem entry_inverse {e : MethodEntry} (he : e ∈ AvailableMethods)
    (sec l : List Nat) (hsec : ∀ c ∈ sec, c < 65536) (hl : ∀ b ∈ l, b < 256) :
    e.decryptImpl sec (e.encryptImpl sec l) = l := by
  rcases entry_mem_cases he with h | h | h <;> subst h
  · exact XOR.encrypt_encrypt sec l hsec hl
  · exact aesDecrypt_encrypt sec l hsec hl
  · exact caesarDecrypt_encrypt sec l hl

namespace EncryptionMethod

theorem decrypt_length (sec : List Nat) (b : List Nat) (code : Nat) :
    (decrypt sec 6 b code).length = b.length := by
  unfold decrypt
  match hfind : AvailableMethods.find? (fun e => e.code == code) with
  | none => rw [hfind]
  | some e =>
    have he : e ∈ AvailableMethods := List.mem_of_find?_eq_some hfind
    rw [hfind, List.length_append, entry_decrypt_length he, List.length_take, List.length_drop]
    omega

theorem decrypt_get?_lt6 (sec : List Nat) (b : List Nat) (code : Nat) {i : Nat}
    (hi : i < 6) : (decrypt sec 6 b code).get? i = b.get? i := by
  unfold decrypt
  match hfind : AvailableMethods.find? (fun e => e.code == code) with
  | none => rw [hfind]
  | some e =>
    have he : e ∈ AvailableMethods := List.mem_of_find?_eq_some hfind
    rw [hfind]
    show (List.take 6 b ++ e.decryptImpl sec (List.drop 6 b)).get? i = b.get? i
    by_cases hlen : i < b.length
    · have htl : i < (b.take 6).length := by
        rw [List.length_take]
        omega
      rw [List.get?_eq_getElem?, List.get?_eq_getElem?, List.getElem?_append_left htl,
        List.getElem?_take_of_lt hi]
    · have hb6 : b.length ≤ 6 := by omega
      have hdrop : b.drop 6 = [] := List.drop_eq_nil_of_le hb6
      have himp : e.decryptImpl sec (b.drop 6) = [] := by
        apply List.eq_nil_of_length_eq_zero
        rw [entry_decrypt_length he, hdrop]
        rfl
      rw [himp, List.append_nil, List.take_of_length_le hb6]

theorem readU32be_decrypt (sec : List Nat) (b : List Nat) (code : Nat) :
    readU32be (decrypt sec 6 b code) 2 = readU32be b 2 := by
  unfold readU32be
  rw [decrypt_get?_lt6 sec b code (by omega : (2 : Nat) < 6),
    decrypt_get?_lt6 sec b code (by omega : (3 : Nat) < 6),
    decrypt_get?_lt6 sec b code (by omega : (4 : Nat) < 6),
    decrypt_get?_lt6 sec b code (by omega : (5 : Nat) < 6)]

theorem decrypt_drop6 (sec : List Nat) (b : List Nat) (code : Nat) (e : MethodEntry)
    (hfind : AvailableMethods.find? (fun x => x.code == code) = some e)
    (hb : 6 ≤ b.length) :
    (decrypt sec 6 b code).drop 6 = e.decryptImpl sec (b.drop 6) := by
  unfold decrypt
  rw [hfind]
  have h6 : (b.take 6).length = 6 := by
    rw [List.length_take]
    omega
  calc (b.take 6 ++ e.decryptImpl sec (b.drop 6)).drop 6
      = (b.take 6 ++ e.decryptImpl sec (b.drop 6)).drop (b.take 6).length := by rw [h6]
    _ = e.decryptImpl sec (b.drop 6) := List.drop_left _ _

end EncryptionMethod

/-- C6: `unpack` never mutates its argument: the caller's buffer holds the
same bytes after the call (which operates on a private `slice(0)` copy) as
before, whatever the configuration and whatever the outcome. -/
theorem claim_C6_unpack_no_mutation (p : Packer) (buffer : List Nat) :
    (BinaryPack.unpack p buffer).2 = buffer := rfl

/-- C7: constructor validation: exactly one of secret/method provided
fails with `ConfigError`; both provided with an unregistered method name
fails with `UnsupportedMethod`; a registered method with a secret, or
neither, succeeds. -/
theorem claim_C7_constructor_validation :
    (∀ (s : Option (List Nat)) (m : Option String),
      truthyStr s = true → truthyName m = false →
      BinaryPack.new s m = .error .configError) ∧
    (∀ (s : Option (List Nat)) (m : Option String),
      truthyName m = true → truthyStr s = false →
      BinaryPack.new s m = .error .configError) ∧
    (∀ (s : Option (List Nat)) (m : Option String),
      truthyStr s = true → truthyName m = true →
      (AvailableMethods.map (fun e => e.name)).contains (m.getD "") = false →
      BinaryPack.new s m = .error .unsupportedMethod) ∧
    (∀ (s : Option (List Nat)) (m : Option String),
      truthyStr s = true → truthyName m = true →
      (AvailableMethods.map (fun e => e.name)).contains (m.getD "") = true →
      BinaryPack.new s m = .ok ⟨s, m⟩) ∧
    (∀ (s : Option (List Nat)) (m : Option String),
      truthyStr s = false → truthyName m = false →
      BinaryPack.new s m = .ok ⟨s, m⟩) := by
  refine ⟨?_, ?_, ?_, ?_, ?_⟩
  · intro s m h1 h2
    unfold BinaryPack.new
    simp [h1, h2]
  · intro s m h1 h2
    unfold BinaryPack.new
    simp [h1, h2]
  · intro s m h1 h2 h3
    unfold BinaryPack.new
    simp [h1, h2]
    simp at h3
    exact h3
  · intro s m h1 h2 h3
    unfold BinaryPack.new
    simp [h1, h2]
    simp at h3
    exact h3
  · intro s m h1 h2
    unfold BinaryPack.new
    simp [h1, h2]

/-- Closed-form instances of C7: the five validation outcomes at concrete
arguments (`"x"` is code 120, the registered `"xor"`, the foreign
`"md5"`). -/
theorem claim_C7_constructor_validation_witness :
    BinaryPack.new (some [120]) none = .error .configError ∧
    BinaryPack.new none (some "xor") = .error .configError ∧
    BinaryPack.new (some [120]) (some "md5") = .error .unsupportedMethod ∧
    BinaryPack.new (some [120]) (some "xor") = .ok ⟨some [120], some "xor"⟩ ∧
    BinaryPack.new none none = .ok ⟨none, none⟩ :=
  ⟨claim_C7_constructor_validation.1 (some [120]) none (by decide) (by decide),
   claim_C7_constructor_validation.2.1 none (some "xor") (by decide) (by decide),
   claim_C7_constructor_validation.2.2.1 (some [120]) (some "md5") (by decide) (by decide)
     (by decide),
   claim_C7_constructor_validation.2.2.2.1 (some [120]) (some "xor") (by decide) (by decide)
     (by decide),
   claim_C7_constructor_validation.2.2.2.2 none none (by decide) (by decide)⟩

/-- C3: `unpack` validates in order: first the version byte (byte 0 ≠ 1
fails with `FormatVersionMismatch` regardless of anything else), then —
only when a secret and method are configured — the stored method code
(failing with `MethodMismatch` when it does not resolve via the registry
to the configured name, including when it resolves to nothing, as code 0
does), and only then the stored length (failing with `InvalidLength` when
it exceeds the total length minus 6); the first failing check names the
error. -/
theorem claim_C3_unpack_check_order :
    (∀ (p : Packer) (c : Nat) (rest : List Nat), c ≠ 1 →
      BinaryPack.unpackCore p (c :: rest) = .error .formatVersionMismatch) ∧
    (∀ (p : Packer) (mc : Nat) (rest : List Nat),
      (truthyStr p.secret && truthyName p.encryptionMethod) = true →
      p.encryptionMethod ≠ EncryptionMethod.getEncryptionMethodName mc →
      BinaryPack.unpackCore p (1 :: mc :: rest) = .error .methodMismatch) ∧
    (∀ (p : Packer) (mc : Nat) (rest : List Nat) (n : Nat),
      ((truthyStr p.secret && truthyName p.encryptionMethod) = false ∨
        p.encryptionMethod = EncryptionMethod.getEncryptionMethodName mc) →
      readU32be (1 :: mc :: rest) 2 = some n →
      n > (1 :: mc :: rest : List Nat).length - 6 →
      BinaryPack.unpackCore p (1 :: mc :: rest) = .error .invalidLength) := by
  refine ⟨?_, ?_, ?_⟩
  · intro p c rest hc
    unfold BinaryPack.unpackCore
    show (match readU8 (c :: rest) 0 with
      | none => (.error .rangeError : Except UnpackError Json)
      | some version => if version ≠ 1 then .error .formatVersionMismatch else _) = _
    rw [show readU8 (c :: rest) 0 = some c from rfl]
    simp only [ne_eq, hc, not_false_iff, if_true]
  · intro p mc rest hcfg hmm
    unfold BinaryPack.unpackCore
    rw [show readU8 (1 :: mc :: rest) 0 = some 1 from rfl]
    simp only [ne_eq, not_true, if_false, ite_self]
    rw [show readU8 (1 :: mc :: rest) 1 = some mc from rfl]
    simp only [hcfg, if_true, if_pos hmm]
  · intro p mc rest n hcfg hread hbig
    unfold BinaryPack.unpackCore
    rw [show readU8 (1 :: mc :: rest) 0 = some 1 from rfl]
    simp only [ne_eq, not_true, if_false, ite_self]
    rw [show readU8 (1 :: mc :: rest) 1 = some mc from rfl]
    rcases hcfg with hcfg | hcfg
    · simp only [hcfg, Bool.false_eq_true, if_false]
      rw [hread]
      show (if n > (1 :: mc :: rest : List Nat).length - 6 then
          (Except.error UnpackError.invalidLength : Except UnpackError Json)
        else match jsonParse (utf8Decode (List.take n (List.drop 6 (1 :: mc :: rest)))) with
          | none => Except.error UnpackError.jsonError
          | some v => Except.ok v) = Except.error UnpackError.invalidLength
      rw [if_pos hbig]
    · by_cases htru : (truthyStr p.secret && truthyName p.encryptionMethod) = true
      · have hnn : ¬(p.encryptionMethod ≠ EncryptionMethod.getEncryptionMethodName mc) :=
          fun hx => hx hcfg
        have hlen := EncryptionMethod.decrypt_length (p.secret.getD []) (1 :: mc :: rest) mc
        have hr := EncryptionMethod.readU32be_decrypt (p.secret.getD []) (1 :: mc :: rest) mc
        simp only [htru, if_true, if_neg hnn]
        rw [hr, hread]
        show (if n > (EncryptionMethod.decrypt (p.secret.getD []) 6 (1 :: mc :: rest)
              mc).length - 6 then
            (Except.error UnpackError.invalidLength : Except UnpackError Json)
          else match jsonParse (utf8Decode (List.take n (List.drop 6
              (EncryptionMethod.decrypt (p.secret.getD []) 6 (1 :: mc :: rest) mc)))) with
            | none => Except.error UnpackError.jsonError
            | some v => Except.ok v) = Except.error UnpackError.invalidLength
        rw [if_pos (by rw [hlen]; exact hbig)]
      · simp only [Bool.not_eq_true] at htru
        simp only [htru, Bool.false_eq_true, if_false]
        rw [hread]
        show (if n > (1 :: mc :: rest : List Nat).length - 6 then
            (Except.error UnpackError.invalidLength : Except UnpackError Json)
          else match jsonParse (utf8Decode (List.take n (List.drop 6 (1 :: mc :: rest)))) with
            | none => Except.error UnpackError.jsonError
            | some v => Except.ok v) = Except.error UnpackError.invalidLength
        rw [if_pos hbig]

/-- Closed-form instances of C3: each failing check at a concrete buffer
and packer. -/
theorem claim_C3_unpack_check_order_witness :
    BinaryPack.unpackCore ⟨none, none⟩ [2] = .error .formatVersionMismatch ∧
    BinaryPack.unpackCore ⟨some [120], some "xor"⟩ [1, 0] = .error .methodMismatch ∧
    BinaryPack.unpackCore ⟨none, none⟩ [1, 0, 0, 0, 0, 9] = .error .invalidLength :=
  ⟨claim_C3_unpack_check_order.1 ⟨none, none⟩ 2 [] (by decide),
   claim_C3_unpack_check_order.2.1 ⟨some [120], some "xor"⟩ 0 [] (by decide) (by decide),
   claim_C3_unpack_check_order.2.2 ⟨none, none⟩ 0 [0, 0, 0, 9] 9 (Or.inl (by decide))
     (by decide) (by decide)⟩

theorem unpackCore_cons6 (p : Packer) (a0 a1 a2 a3 a4 a5 : Nat) (t : List Nat) :
    BinaryPack.unpackCore p (a0 :: a1 :: a2 :: a3 :: a4 :: a5 :: t) =
      if a0 ≠ 1 then .error .formatVersionMismatch
      else if (truthyStr p.secret && truthyName p.encryptionMethod) = true then
        if p.encryptionMethod ≠ EncryptionMethod.getEncryptionMethodName a1 then
          .error .methodMismatch
        else
          unpackTail (EncryptionMethod.decrypt (p.secret.getD []) 6
            (a0 :: a1 :: a2 :: a3 :: a4 :: a5 :: t) a1)
      else unpackTail (a0 :: a1 :: a2 :: a3 :: a4 :: a5 :: t) := by
  unfold BinaryPack.unpackCore
  rw [show readU8 (a0 :: a1 :: a2 :: a3 :: a4 :: a5 :: t) 0 = some a0 from rfl]
  by_cases ha0 : a0 ≠ 1
  · simp only [ne_eq, ha0, not_false_iff, if_true]
  · simp only [ne_eq, not_not] at ha0
    subst ha0
    simp only [ne_eq, not_true, if_false, ite_self]
    rw [show readU8 (1 :: a1 :: a2 :: a3 :: a4 :: a5 :: t) 1 = some a1 from rfl]
    by_cases hcfg : (truthyStr p.secret && truthyName p.encryptionMethod) = true
    · by_cases hmm : p.encryptionMethod ≠ EncryptionMethod.getEncryptionMethodName a1
      · simp only [hcfg, if_true, if_pos hmm]
      · simp only [hcfg, if_true, if_neg hmm]
        rfl
    · simp only [Bool.not_eq_true] at hcfg
      simp only [hcfg, Bool.false_eq_true, if_false]
      rfl

theorem unpackTail_congr (b1 b2 : List Nat) (n : Nat)
    (hr : readU32be b1 2 = readU32be b2 2)
    (hn : readU32be b1 2 = some n)
    (hl1 : ¬ n > b1.length - 6) (hl2 : ¬ n > b2.length - 6)
    (hp : (b1.drop 6).take n = (b2.drop 6).take n) : unpackTail b1 = unpackTail b2 := by
  unfold unpackTail
  rw [hn, ← hr, hn]
  show (if n > b1.length - 6 then (Except.error UnpackError.invalidLength :
        Except UnpackError Json)
      else match jsonParse (utf8Decode ((b1.drop 6).take n)) with
        | none => Except.error UnpackError.jsonError
        | some v => Except.ok v) =
    (if n > b2.length - 6 then Except.error UnpackError.invalidLength
      else match jsonParse (utf8Decode ((b2.drop 6).take n)) with
        | none => Except.error UnpackError.jsonError
        | some v => Except.ok v)
  rw [if_neg hl1, if_neg hl2, hp]

theorem exists_six {b : List Nat} (h : 6 ≤ b.length) :
    ∃ a0 a1 a2 a3 a4 a5 t, b = a0 :: a1 :: a2 :: a3 :: a4 :: a5 :: t := by
  match b with
  | a0 :: a1 :: a2 :: a3 :: a4 :: a5 :: t => exact ⟨a0, a1, a2, a3, a4, a5, t, rfl⟩
  | [] => simp at h
  | [_] => simp at h
  | [_, _] => simp at h
  | [_, _, _] => simp at h
  | [_, _, _, _] => simp at h
  | [_, _, _, _, _] => simp at h

theorem take_six_add (n x0 x1 x2 x3 x4 x5 : Nat) (t : List Nat) :
    List.take (6 + n) (x0 :: x1 :: x2 :: x3 :: x4 :: x5 :: t) =
      x0 :: x1 :: x2 :: x3 :: x4 :: x5 :: List.take n t := by
  rw [show 6 + n = (5 + n) + 1 by omega, List.take_succ_cons,
    show 5 + n = (4 + n) + 1 by omega, List.take_succ_cons,
    show 4 + n = (3 + n) + 1 by omega, List.take_succ_cons,
    show 3 + n = (2 + n) + 1 by omega, List.take_succ_cons,
    show 2 + n = (1 + n) + 1 by omega, List.take_succ_cons,
    show 1 + n = n + 1 by omega, List.take_succ_cons]

theorem getName_find {mc : Nat} {nm : String}
    (h : EncryptionMethod.getEncryptionMethodName mc = some nm) :
    ∃ e, AvailableMethods.find? (fun x => x.code == mc) = some e ∧ e.name = nm := by
  unfold EncryptionMethod.getEncryptionMethodName at h
  match hf : AvailableMethods.find? (fun x => x.code == mc) with
  | none => rw [hf] at h; cases h
  | some e =>
    rw [hf] at h
    simp only [Option.map_some', Option.some.injEq] at h
    exact ⟨e, hf, h⟩

/-- C10: trailing bytes are ignored: `unpack` depends only on the 6 header
bytes and the `storedLength` payload bytes that follow them — two buffers
agreeing there, whose lengths both pass the `InvalidLength` check, yield
identical outcomes (the transforms map each byte independently of the
bytes after it). -/
theorem claim_C10_trailing_bytes_ignored (p : Packer) (b1 b2 : List Nat) (n : Nat)
    (h61 : 6 ≤ b1.length) (h62 : 6 ≤ b2.length)
    (hn : readU32be b1 2 = some n)
    (hl1 : ¬ n > b1.length - 6) (hl2 : ¬ n > b2.length - 6)
    (hagree : b1.take (6 + n) = b2.take (6 + n)) :
    BinaryPack.unpackCore p b1 = BinaryPack.unpackCore p b2 := by
  obtain ⟨a0, a1, a2, a3, a4, a5, t1, rfl⟩ := exists_six h61
  obtain ⟨c0, c1, c2, c3, c4, c5, t2, rfl⟩ := exists_six h62
  rw [take_six_add, take_six_add] at hagree
  injection hagree with e0 hagree
  injection hagree with e1 hagree
  injection hagree with e2 hagree
  injection hagree with e3 hagree
  injection hagree with e4 hagree
  injection hagree with e5 htail
  subst e0; subst e1; subst e2; subst e3; subst e4; subst e5
  have hr12 : readU32be (a0 :: a1 :: a2 :: a3 :: a4 :: a5 :: t1) 2 =
      readU32be (a0 :: a1 :: a2 :: a3 :: a4 :: a5 :: t2) 2 := rfl
  have hdrop1 : (a0 :: a1 :: a2 :: a3 :: a4 :: a5 :: t1 : List Nat).drop 6 = t1 := rfl
  have hdrop2 : (a0 :: a1 :: a2 :: a3 :: a4 :: a5 :: t2 : List Nat).drop 6 = t2 := rfl
  rw [unpackCore_cons6, unpackCore_cons6]
  by_cases ha0 : a0 ≠ 1
  · rw [if_pos ha0, if_pos ha0]
  rw [if_neg ha0, if_neg ha0]
  by_cases hcfg : (truthyStr p.secret && truthyName p.encryptionMethod) = true
  · rw [if_pos hcfg, if_pos hcfg]
    by_cases hmm : p.encryptionMethod ≠ EncryptionMethod.getEncryptionMethodName a1
    · rw [if_pos hmm, if_pos hmm]
    rw [if_neg hmm, if_neg hmm]
    simp only [ne_eq, not_not] at hmm
    have htn : truthyName p.encryptionMethod = true := by
      have h2 := hcfg
      simp only [Bool.and_eq_true] at h2
      exact h2.2
    match hpe : p.encryptionMethod with
    | none => rw [hpe] at htn; cases htn
    | some nm =>
      rw [hpe] at hmm
      obtain ⟨e, hfind, _⟩ := getName_find hmm.symm
      have he : e ∈ AvailableMethods := List.mem_of_find?_eq_some hfind
      have hb1 : 6 ≤ (a0 :: a1 :: a2 :: a3 :: a4 :: a5 :: t1 : List Nat).length := by
        simp only [List.length_cons]; omega
      have hb2 : 6 ≤ (a0 :: a1 :: a2 :: a3 :: a4 :: a5 :: t2 : List Nat).length := by
        simp only [List.length_cons]; omega
      refine unpackTail_congr _ _ n ?_ ?_ ?_ ?_ ?_
      · rw [EncryptionMethod.readU32be_decrypt, EncryptionMethod.readU32be_decrypt]
        exact hr12
      · rw [EncryptionMethod.readU32be_decrypt]
        exact hn
      · rw [EncryptionMethod.decrypt_length]
        exact hl1
      · rw [EncryptionMethod.decrypt_length]
        exact hl2
      · rw [EncryptionMethod.decrypt_drop6 _ _ _ e hfind hb1,
          EncryptionMethod.decrypt_drop6 _ _ _ e hfind hb2,
          hdrop1, hdrop2, entry_decrypt_take he, entry_decrypt_take he, htail]
  · rw [if_neg hcfg, if_neg hcfg]
    exact unpackTail_congr _ _ n hr12 hn hl1 hl2 (by rw [hdrop1, hdrop2, htail])

/-- Closed instance of C10: two buffers sharing header and 1-byte payload,
with different trailing bytes, unpack identically. -/
theorem claim_C10_trailing_bytes_ignored_witness :
    BinaryPack.unpackCore ⟨none, none⟩ [1, 0, 0, 0, 0, 1, 110, 77] =
      BinaryPack.unpackCore ⟨none, none⟩ [1, 0, 0, 0, 0, 1, 110, 88, 99] :=
  claim_C10_trailing_bytes_ignored ⟨none, none⟩ _ _ 1 (by decide) (by decide)
    (by decide) (by decide) (by decide) (by decide)

namespace EncryptionMethod

theorem encrypt_length (sec : List Nat) (b : List Nat) (m : String) :
    (encrypt sec 6 b m).length = b.length := by
  unfold encrypt
  match hfind : AvailableMethods.find? (fun e => e.name == m) with
  | none => rw [hfind]
  | some e =>
    have he : e ∈ AvailableMethods := List.mem_of_find?_eq_some hfind
    rw [hfind, List.length_append, entry_encrypt_length he, List.length_take, List.length_drop]
    omega

theorem encrypt_get?_lt6 (sec : List Nat) (b : List Nat) (m : String) {i : Nat}
    (hi : i < 6) : (encrypt sec 6 b m).get? i = b.get? i := by
  unfold encrypt
  match hfind : AvailableMethods.find? (fun e => e.name == m) with
  | none => rw [hfind]
  | some e =>
    have he : e ∈ AvailableMethods := List.mem_of_find?_eq_some hfind
    rw [hfind]
    show (List.take 6 b ++ e.encryptImpl sec (List.drop 6 b)).get? i = b.get? i
    by_cases hlen : i < b.length
    · have htl : i < (b.take 6).length := by
        rw [List.length_take]
        omega
      rw [List.get?_eq_getElem?, List.get?_eq_getElem?, List.getElem?_append_left htl,
        List.getElem?_take_of_lt hi]
    · have hb6 : b.length ≤ 6 := by omega
      have hdrop : b.drop 6 = [] := List.drop_eq_nil_of_le hb6
      have himp : e.encryptImpl sec (b.drop 6) = [] := by
        apply List.eq_nil_of_length_eq_zero
        rw [entry_encrypt_length he, hdrop]
        rfl
      rw [himp, List.append_nil, List.take_of_length_le hb6]

theorem readU32be_encrypt (sec : List Nat) (b : List Nat) (m : String) :
    readU32be (encrypt sec 6 b m) 2 = readU32be b 2 := by
  unfold readU32be
  rw [encrypt_get?_lt6 sec b m (by omega : (2 : Nat) < 6),
    encrypt_get?_lt6 sec b m (by omega : (3 : Nat) < 6),
    encrypt_get?_lt6 sec b m (by omega : (4 : Nat) < 6),
    encrypt_get?_lt6 sec b m (by omega : (5 : Nat) < 6)]

theorem encrypt_take6 (sec : List Nat) (b : List Nat) (m : String) (hb : 6 ≤ b.length) :
    (encrypt sec 6 b m).take 6 = b.take 6 := by
  unfold encrypt
  match hfind : AvailableMethods.find? (fun e => e.name == m) with
  | none => rw [hfind]
  | some e =>
    rw [hfind]
    have h6 : (b.take 6).length = 6 := by
      rw [List.length_take]
      omega
    calc (b.take 6 ++ e.encryptImpl sec (b.drop 6)).take 6
        = (b.take 6 ++ e.encryptImpl sec (b.drop 6)).take (b.take 6).length := by rw [h6]
      _ = b.take 6 := List.take_left _ _

end EncryptionMethod

theorem readU32be_header (mc n : Nat) (sb : List Nat) :
    readU32be (1 :: mc :: (be32 n ++ sb)) 2 =
      some (n / 16777216 % 256 * 16777216 + n / 65536 % 256 * 65536 +
        n / 256 % 256 * 256 + n % 256) := rfl

theorem be32_val_of_lt {n : Nat} (hn : n < 4294967296) :
    n / 16777216 % 256 * 16777216 + n / 65536 % 256 * 65536 +
      n / 256 % 256 * 256 + n % 256 = n := by
  omega

/-- C2: wire format of `pack`: for a value whose UTF-8 serialization has
`n < 2^32` bytes (amended: `setUint32` stores `n mod 2^32`, so the stored
length equals `n` only below `2^32`), the output has length `6 + n`, byte 0
is the version `1`, byte 1 is the configured method's registry code (`0`
when none; 1 = xor, 2 = aes-like, 3 = caesar), bytes 2–5 hold `n`
big-endian, and the first 6 bytes equal the untransformed header whatever
the configuration (transforms touch only offsets ≥ 6). -/
theorem claim_C2_pack_wire_format (p : Packer) (v : Json)
    (hn : (utf8Encode (render v)).length < 4294967296) :
    (BinaryPack.pack p v).length = 6 + (utf8Encode (render v)).length ∧
    readU8 (BinaryPack.pack p v) 0 = some 1 ∧
    readU8 (BinaryPack.pack p v) 1 =
      some (EncryptionMethod.getEncryptionMethodCode p.encryptionMethod) ∧
    (EncryptionMethod.getEncryptionMethodCode none = 0 ∧
      EncryptionMethod.getEncryptionMethodCode (some "xor") = 1 ∧
      EncryptionMethod.getEncryptionMethodCode (some "aes-like") = 2 ∧
      EncryptionMethod.getEncryptionMethodCode (some "caesar") = 3) ∧
    readU32be (BinaryPack.pack p v) 2 = some (utf8Encode (render v)).length ∧
    (BinaryPack.pack p v).take 6 =
      1 :: EncryptionMethod.getEncryptionMethodCode p.encryptionMethod ::
        be32 (utf8Encode (render v)).length := by
  have hlen6 : 6 ≤ (1 :: EncryptionMethod.getEncryptionMethodCode p.encryptionMethod ::
      (be32 (utf8Encode (render v)).length ++ utf8Encode (render v)) : List Nat).length := by
    simp only [List.length_cons, List.length_append, be32, List.length_nil]
    omega
  by_cases hcfg : (truthyStr p.secret && truthyName p.encryptionMethod) = true
  · have hp : BinaryPack.pack p v = EncryptionMethod.encrypt (p.secret.getD []) 6
        (1 :: EncryptionMethod.getEncryptionMethodCode p.encryptionMethod ::
          (be32 (utf8Encode (render v)).length ++ utf8Encode (render v)))
        (p.encryptionMethod.getD "") := by
      unfold BinaryPack.pack
      rw [if_pos hcfg]
    refine ⟨?_, ?_, ?_, ⟨rfl, rfl, rfl, rfl⟩, ?_, ?_⟩
    · rw [hp, EncryptionMethod.encrypt_length]
      simp only [List.length_cons, List.length_append, be32, List.length_nil]
      omega
    · unfold readU8
      rw [hp, EncryptionMethod.encrypt_get?_lt6 _ _ _ (by omega : (0 : Nat) < 6)]
      rfl
    · unfold readU8
      rw [hp, EncryptionMethod.encrypt_get?_lt6 _ _ _ (by omega : (1 : Nat) < 6)]
      rfl
    · rw [hp, EncryptionMethod.readU32be_encrypt, readU32be_header, be32_val_of_lt hn]
    · rw [hp, EncryptionMethod.encrypt_take6 _ _ _ hlen6]
      rfl
  · have hp : BinaryPack.pack p v =
        1 :: EncryptionMethod.getEncryptionMethodCode p.encryptionMethod ::
          (be32 (utf8Encode (render v)).length ++ utf8Encode (render v)) := by
      unfold BinaryPack.pack
      rw [if_neg hcfg]
    refine ⟨?_, ?_, ?_, ⟨rfl, rfl, rfl, rfl⟩, ?_, ?_⟩
    · rw [hp]
      simp only [List.length_cons, List.length_append, be32, List.length_nil]
      omega
    · rw [hp]
      rfl
    · rw [hp]
      rfl
    · rw [hp, readU32be_header, be32_val_of_lt hn]
    · rw [hp]
      rfl

/-- Closed instance of C2 at `Json.null` with the xor configuration. -/
theorem claim_C2_pack_wire_format_witness :
    (utf8Encode (render Json.null)).length < 4294967296 ∧
    (BinaryPack.pack ⟨some [107], some "xor"⟩ Json.null).length =
      6 + (utf8Encode (render Json.null)).length ∧
    readU8 (BinaryPack.pack ⟨some [107], some "xor"⟩ Json.null) 0 = some 1 ∧
    readU8 (BinaryPack.pack ⟨some [107], some "xor"⟩ Json.null) 1 = some 1 ∧
    readU32be (BinaryPack.pack ⟨some [107], some "xor"⟩ Json.null) 2 =
      some (utf8Encode (render Json.null)).length := by
  have hn : (utf8Encode (render Json.null)).length < 4294967296 := by
    rw [show render Json.null = [110, 117, 108, 108] from rfl,
      utf8Encode_ascii _ (by decide)]
    decide
  have h := claim_C2_pack_wire_format ⟨some [107], some "xor"⟩ Json.null hn
  exact ⟨hn, h.1, h.2.1, by rw [h.2.2.1]; rfl, h.2.2.2.2.1⟩

theorem EncryptionMethod.encrypt_drop6 (sec : List Nat) (b : List Nat) (m : String)
    (e : MethodEntry)
    (hfind : AvailableMethods.find? (fun x => x.name == m) = some e)
    (hb : 6 ≤ b.length) :
    (EncryptionMethod.encrypt sec 6 b m).drop 6 = e.encryptImpl sec (b.drop 6) := by
  unfold EncryptionMethod.encrypt
  rw [hfind]
  have h6 : (b.take 6).length = 6 := by
    rw [List.length_take]
    omega
  calc (b.take 6 ++ e.encryptImpl sec (b.drop 6)).drop 6
      = (b.take 6 ++ e.encryptImpl sec (b.drop 6)).drop (b.take 6).length := by rw [h6]
    _ = e.encryptImpl sec (b.drop 6) := List.drop_left _ _

theorem getD_eq_of_get? {l : List Nat} {i a : Nat} (h : l.get? i = some a) :
    l.getD i 0 = a := by
  rw [List.getD_eq_getElem?_getD, ← List.get?_eq_getElem?, h]
  rfl

theorem pack_none (v : Json) : BinaryPack.pack ⟨none, none⟩ v =
    1 :: 0 :: (be32 (utf8Encode (render v)).length ++ utf8Encode (render v)) := by
  unfold BinaryPack.pack
  rw [if_neg (by decide :
    ¬((truthyStr (none : Option (List Nat)) && truthyName (none : Option String)) = true))]
  rfl

theorem rep97_quote (k : Nat) :
    quoteJSONString (List.replicate k 97) = List.replicate k 97 := by
  induction k with
  | zero => exact q_nil
  | succ k ih =>
    rw [List.replicate_succ, q_lit (by omega) (by omega) (by omega) (by omega), ih]

theorem rep97_render (k : Nat) :
    render (Json.str (List.replicate k 97)) = 34 :: (List.replicate k 97 ++ [34]) := by
  show 34 :: (quoteJSONString (List.replicate k 97) ++ [34]) = _
  rw [rep97_quote]

theorem rep97_utf8 (k : Nat) :
    utf8Encode (render (Json.str (List.replicate k 97))) =
      34 :: (List.replicate k 97 ++ [34]) := by
  rw [rep97_render]
  apply utf8Encode_ascii
  intro c hc
  rcases List.mem_cons.mp hc with rfl | hc
  · omega
  rcases List.mem_append.mp hc with hc | hc
  · rw [List.eq_of_mem_replicate hc]
    omega
  · rw [List.mem_singleton.mp hc]
    omega

theorem rep97_len (k : Nat) :
    (utf8Encode (render (Json.str (List.replicate k 97)))).length = k + 2 := by
  rw [rep97_utf8]
  simp only [List.length_cons, List.length_append, List.length_replicate,
    List.length_nil]

/-- At a payload of `2^32` bytes the stored 32-bit length wraps: the bytes
at offsets 2–5 read back `2`, not the true serialized length `2^32 + 2`, so
the unconditional wording of C2 fails. -/
theorem claim_C2_pack_wire_format_counterexample :
    readU32be (BinaryPack.pack ⟨none, none⟩ (Json.str (List.replicate 4294967296 97))) 2 ≠
      some (utf8Encode (render (Json.str (List.replicate 4294967296 97)))).length := by
  intro h
  rw [pack_none, readU32be_header, rep97_len] at h
  injection h with h
  omega

theorem unpackCore_ge6 (p : Packer) (b : List Nat) (hb : 6 ≤ b.length) :
    BinaryPack.unpackCore p b =
      if b.getD 0 0 ≠ 1 then .error .formatVersionMismatch
      else if (truthyStr p.secret && truthyName p.encryptionMethod) = true then
        if p.encryptionMethod ≠ EncryptionMethod.getEncryptionMethodName (b.getD 1 0) then
          .error .methodMismatch
        else
          unpackTail (EncryptionMethod.decrypt (p.secret.getD []) 6 b (b.getD 1 0))
      else unpackTail b := by
  obtain ⟨a0, a1, a2, a3, a4, a5, t, rfl⟩ := exists_six hb
  rw [unpackCore_cons6,
    show ((a0 :: a1 :: a2 :: a3 :: a4 :: a5 :: t : List Nat).getD 0 0) = a0 from rfl,
    show ((a0 :: a1 :: a2 :: a3 :: a4 :: a5 :: t : List Nat).getD 1 0) = a1 from rfl]

theorem unpackTail_payload (sb : List Nat) (mc : Nat) (hlen : sb.length < 4294967296) :
    unpackTail (1 :: mc :: (be32 sb.length ++ sb)) =
      match jsonParse (utf8Decode sb) with
      | none => .error .jsonError
      | some v => .ok v := by
  unfold unpackTail
  rw [readU32be_header, be32_val_of_lt hlen]
  have hL : (1 :: mc :: (be32 sb.length ++ sb) : List Nat).length = 6 + sb.length := by
    simp only [List.length_cons, List.length_append, be32, List.length_nil]
    omega
  rw [hL]
  show (if sb.length > 6 + sb.length - 6 then
      (Except.error UnpackError.invalidLength : Except UnpackError Json)
    else match jsonParse (utf8Decode (List.take sb.length
        (List.drop 6 (1 :: mc :: (be32 sb.length ++ sb))))) with
      | none => Except.error UnpackError.jsonError
      | some v => Except.ok v) = _
  rw [if_neg (by omega : ¬ sb.length > 6 + sb.length - 6),
    show List.drop 6 (1 :: mc :: (be32 sb.length ++ sb)) = sb from rfl,
    List.take_length]

theorem roundtrip_configured (s sb : List Nat) (m : String) (e : MethodEntry)
    (hfindn : AvailableMethods.find? (fun x => x.name == m) = some e)
    (hfindc : AvailableMethods.find? (fun x => x.code == e.code) = some e)
    (hsec : ∀ c ∈ s, c < 65536) (hsb : ∀ b ∈ sb, b < 256) :
    EncryptionMethod.decrypt s 6
      (EncryptionMethod.encrypt s 6 (1 :: e.code :: (be32 sb.length ++ sb)) m) e.code =
      1 :: e.code :: (be32 sb.length ++ sb) := by
  have hB6 : 6 ≤ (1 :: e.code :: (be32 sb.length ++ sb) : List Nat).length := by
    simp only [List.length_cons, List.length_append, be32, List.length_nil]
    omega
  have he : e ∈ AvailableMethods := List.mem_of_find?_eq_some hfindn
  unfold EncryptionMethod.decrypt
  rw [hfindc]
  show List.take 6 (EncryptionMethod.encrypt s 6
      (1 :: e.code :: (be32 sb.length ++ sb)) m) ++
    e.decryptImpl s (List.drop 6 (EncryptionMethod.encrypt s 6
      (1 :: e.code :: (be32 sb.length ++ sb)) m)) =
    1 :: e.code :: (be32 sb.length ++ sb)
  rw [EncryptionMethod.encrypt_take6 s _ m hB6,
    EncryptionMethod.encrypt_drop6 s _ m e hfindn hB6,
    show (1 :: e.code :: (be32 sb.length ++ sb) : List Nat).drop 6 = sb from rfl,
    entry_inverse he s sb hsec hsb,
    show (1 :: e.code :: (be32 sb.length ++ sb) : List Nat).take 6 =
      1 :: e.code :: be32 sb.length from rfl]
  simp only [List.cons_append]

theorem unpack_pack_configured (s : List Nat) (v : Json) (m : String) (e : MethodEntry)
    (hfindn : AvailableMethods.find? (fun x => x.name == m) = some e)
    (hfindc : AvailableMethods.find? (fun x => x.code == e.code) = some e)
    (hgn : EncryptionMethod.getEncryptionMethodName e.code = some m)
    (hmne : m.isEmpty = false)
    (hsne : s ≠ []) (hsu : ∀ c ∈ s, c < 65536)
    (hwf : jsonWf v = true)
    (hsize : (utf8Encode (render v)).length < 4294967296) :
    BinaryPack.unpackCore (Packer.mk (some s) (some m))
      (BinaryPack.pack (Packer.mk (some s) (some m)) v) = .ok v := by
  have hwf16 : wfUtf16 (render v) = true := wfRender_top v hwf
  have hbytes : ∀ b ∈ utf8Encode (render v), b < 256 :=
    utf8Encode_bytes_lt (render v) (wf_units_lt _ hwf16)
  have hts : truthyStr (some s) = true := by
    match s with
    | [] => exact absurd rfl hsne
    | c :: t => rfl
  have htn : truthyName (some m) = true := by
    unfold truthyName
    show (!m.isEmpty) = true
    rw [hmne]
    rfl
  have hcfgT : (truthyStr (some s) && truthyName (some m)) = true := by
    rw [hts, htn]
    rfl
  have hgc : EncryptionMethod.getEncryptionMethodCode (some m) = e.code := by
    unfold EncryptionMethod.getEncryptionMethodCode
    show (match AvailableMethods.find? (fun x => x.name == m) with
      | none => 0
      | some x => x.code) = e.code
    rw [hfindn]
  have hp : BinaryPack.pack (Packer.mk (some s) (some m)) v =
      EncryptionMethod.encrypt s 6
        (1 :: e.code :: (be32 (utf8Encode (render v)).length ++ utf8Encode (render v))) m := by
    unfold BinaryPack.pack
    dsimp only [Option.getD]
    rw [if_pos hcfgT, hgc]
  rw [hp]
  have hE6 : 6 ≤ (EncryptionMethod.encrypt s 6
      (1 :: e.code :: (be32 (utf8Encode (render v)).length ++ utf8Encode (render v)))
      m).length := by
    rw [EncryptionMethod.encrypt_length]
    simp only [List.length_cons, List.length_append, be32, List.length_nil]
    omega
  have hg0 : (EncryptionMethod.encrypt s 6
      (1 :: e.code :: (be32 (utf8Encode (render v)).length ++ utf8Encode (render v)))
      m).getD 0 0 = 1 :=
    getD_eq_of_get? (by
      rw [EncryptionMethod.encrypt_get?_lt6 _ _ _ (by omega : (0 : Nat) < 6)]
      rfl)
  have hg1 : (EncryptionMethod.encrypt s 6
      (1 :: e.code :: (be32 (utf8Encode (render v)).length ++ utf8Encode (render v)))
      m).getD 1 0 = e.code :=
    getD_eq_of_get? (by
      rw [EncryptionMethod.encrypt_get?_lt6 _ _ _ (by omega : (1 : Nat) < 6)]
      rfl)
  rw [unpackCore_ge6 _ _ hE6, hg0, hg1,
    if_neg (show ¬(1 : Nat) ≠ 1 from fun h => h rfl)]
  dsimp only [Option.getD]
  rw [if_pos hcfgT, hgn,
    if_neg (show ¬(some m ≠ some m) from fun h => h rfl),
    roundtrip_configured s (utf8Encode (render v)) m e hfindn hfindc hsu hbytes,
    unpackTail_payload _ _ hsize, utf8_roundtrip _ hwf16, jsonParse_render]

/-- C1 (amended: the payload's UTF-8 serialization must be shorter than
`2^32` bytes — `setUint32` wraps the stored length otherwise, see the
counterexample): for every well-formed value, a packer with no secret and
no method round-trips `unpack (pack v) = v`, and so does a packer with any
nonempty secret and any of the three method names. -/
theorem claim_C1_round_trip (p : Packer) (v : Json)
    (hwf : jsonWf v = true)
    (hsize : (utf8Encode (render v)).length < 4294967296)
    (hcfg : (p.secret = none ∧ p.encryptionMethod = none) ∨
      (∃ s m, p.secret = some s ∧ s ≠ [] ∧ (∀ c ∈ s, c < 65536) ∧
        p.encryptionMethod = some m ∧ (m = "xor" ∨ m = "aes-like" ∨ m = "caesar"))) :
    (BinaryPack.unpack p (BinaryPack.pack p v)).1 = .ok v := by
  obtain ⟨ps, pm⟩ := p
  show BinaryPack.unpackCore (Packer.mk ps pm)
    (List.drop 0 (BinaryPack.pack (Packer.mk ps pm) v)) = .ok v
  rw [List.drop_zero]
  rcases hcfg with ⟨hs, hm⟩ | ⟨s, m, hs, hsne, hsu, hm, hmcase⟩
  · have hs' : ps = none := hs
    have hm' : pm = none := hm
    subst hs'
    subst hm'
    have hwf16 : wfUtf16 (render v) = true := wfRender_top v hwf
    rw [pack_none, unpackCore_ge6 _ _ (by
      simp only [List.length_cons, List.length_append, be32, List.length_nil]
      omega),
      show ((1 : Nat) :: 0 :: (be32 (utf8Encode (render v)).length ++
        utf8Encode (render v)) : List Nat).getD 0 0 = 1 from rfl,
      if_neg (show ¬(1 : Nat) ≠ 1 from fun h => h rfl)]
    dsimp only
    rw [if_neg (by decide : ¬((truthyStr (none : Option (List Nat)) &&
        truthyName (none : Option String)) = true)),
      unpackTail_payload _ _ hsize, utf8_roundtrip _ hwf16, jsonParse_render]
  · have hs' : ps = some s := hs
    have hm' : pm = some m := hm
    subst hs'
    subst hm'
    rcases hmcase with rfl | rfl | rfl
    · exact unpack_pack_configured s v "xor" ⟨1, "xor", XOR.encrypt, XOR.decrypt⟩
        rfl rfl rfl rfl hsne hsu hwf hsize
    · exact unpack_pack_configured s v "aes-like" ⟨2, "aes-like", AES.encrypt, AES.decrypt⟩
        rfl rfl rfl rfl hsne hsu hwf hsize
    · exact unpack_pack_configured s v "caesar" ⟨3, "caesar", Caesar.encrypt, Caesar.decrypt⟩
        rfl rfl rfl rfl hsne hsu hwf hsize

/-- Closed instance of C1: `null` round-trips through the xor
configuration with secret "k". -/
theorem claim_C1_round_trip_witness :
    (BinaryPack.unpack ⟨some [107], some "xor"⟩
      (BinaryPack.pack ⟨some [107], some "xor"⟩ Json.null)).1 = .ok Json.null :=
  claim_C1_round_trip ⟨some [107], some "xor"⟩ Json.null rfl
    (by rw [show render Json.null = [110, 117, 108, 108] from rfl,
          utf8Encode_ascii _ (by decide)]
        decide)
    (Or.inr ⟨[107], "xor", rfl, by decide, by decide, rfl, Or.inl rfl⟩)

theorem psb_single_lit : parseStringBody [97] = none := by
  rw [psb_lit (by omega) (by omega) (by omega),
    show parseStringBody ([] : List Nat) = none from by rw [parseStringBody.eq_def]]
  rfl

theorem jsonParse_quote_a : jsonParse [34, 97] = none := by
  have hpv : parseValue 3 [34, 97] = none := by
    show (parseStringBody [97]).map (fun p => (Json.str p.1, p.2)) = none
    rw [psb_single_lit]
    rfl
  show (parseValue 3 [34, 97]).bind _ = none
  rw [hpv]
  rfl

theorem unpack_fst (p : Packer) (b : List Nat) :
    (BinaryPack.unpack p b).1 = BinaryPack.unpackCore p b := rfl

/-- The unconditional round trip of C1 fails at a serialized payload of
`2^32 + 2` bytes: the stored length wraps to `2`, unpack slices only the
first two payload bytes `"a`, and `JSON.parse` rejects the unterminated
string, so unpack reports a parse error instead of the original value. -/
theorem claim_C1_round_trip_counterexample :
    (BinaryPack.unpack ⟨none, none⟩ (BinaryPack.pack ⟨none, none⟩
        (Json.str (List.replicate 4294967296 97)))).1 ≠
      Except.ok (Json.str (List.replicate 4294967296 97)) := by
  have hlen34 : (34 :: (List.replicate 4294967296 97 ++ [34]) : List Nat).length =
      4294967296 + 2 := by
    rw [List.length_cons, List.length_append, List.length_replicate,
      show ([34] : List Nat).length = 1 from rfl]
  have hblen : (1 :: 0 :: (be32 (4294967296 + 2) ++
      (34 :: (List.replicate 4294967296 97 ++ [34]))) : List Nat).length =
      4294967296 + 8 := by
    rw [List.length_cons, List.length_cons, List.length_append, List.length_cons,
      List.length_append, List.length_replicate,
      show (be32 (4294967296 + 2)).length = 4 from rfl,
      show ([34] : List Nat).length = 1 from rfl]
  have hval : (BinaryPack.unpack ⟨none, none⟩ (BinaryPack.pack ⟨none, none⟩
      (Json.str (List.replicate 4294967296 97)))).1 = Except.error UnpackError.jsonError := by
    rw [unpack_fst, pack_none, rep97_utf8, hlen34]
    rw [unpackCore_ge6 _ _ (by rw [hblen]; omega),
      show ((1 : Nat) :: 0 :: (be32 (4294967296 + 2) ++
        (34 :: (List.replicate 4294967296 97 ++ [34]))) : List Nat).getD 0 0 = 1 from rfl,
      if_neg (show ¬(1 : Nat) ≠ 1 from fun h => h rfl)]
    dsimp only
    rw [if_neg (by decide : ¬((truthyStr (none : Option (List Nat)) &&
        truthyName (none : Option String)) = true))]
    unfold unpackTail
    rw [readU32be_header,
      show (4294967296 + 2) / 16777216 % 256 * 16777216 +
        (4294967296 + 2) / 65536 % 256 * 65536 +
        (4294967296 + 2) / 256 % 256 * 256 + (4294967296 + 2) % 256 = 2 from by norm_num]
    show (if (2 : Nat) > (1 :: 0 :: (be32 (4294967296 + 2) ++
        (34 :: (List.replicate 4294967296 97 ++ [34]))) : List Nat).length - 6 then
        (Except.error UnpackError.invalidLength : Except UnpackError Json)
      else match jsonParse (utf8Decode (List.take 2 (List.drop 6
          (1 :: 0 :: (be32 (4294967296 + 2) ++
            (34 :: (List.replicate 4294967296 97 ++ [34]))))))) with
        | none => Except.error UnpackError.jsonError
        | some v => Except.ok v) = Except.error UnpackError.jsonError
    rw [hblen, if_neg (by omega : ¬ (2 : Nat) > 4294967296 + 8 - 6),
      show List.drop 6 (1 :: 0 :: (be32 (4294967296 + 2) ++
        (34 :: (List.replicate 4294967296 97 ++ [34])))) =
        34 :: (List.replicate 4294967296 97 ++ [34]) from rfl,
      show (4294967296 : Nat) = 4294967295 + 1 from by norm_num,
      List.replicate_succ, List.cons_append,
      show List.take 2 (34 :: 97 :: (List.replicate 4294967295 97 ++ [34])) = [34, 97]
        from rfl,
      show utf8Decode [34, 97] = [34, 97] from by
        rw [d_ascii (by omega), d_ascii (by omega), utf8Decode.eq_def],
      jsonParse_quote_a]
  rw [hval]
  intro h
  exact Except.noConfusion h
